import Mathlib

/-!
Shallow embedding of the `dna` PostgreSQL extension (src/dna.c) in Lean 4,
together with theorems checking the natural-language specification against it.

Modelling conventions:
* C strings become `List Char`; the terminating NUL is implicit (list end).
* `uint64_t` words become `Nat`.  Shifts/ORs in the encoders never exceed
  2^64 (codes < 4 at bit offsets ≤ 62), so no truncation is needed there;
  where 64-bit wrap-around matters (`generate_kmers`' `max_calls`,
  `starts_with`'s mask) we model it explicitly.
* `ereport(ERROR, ...)` aborts the function; we model fallible functions with
  `Except String`.
-/

namespace DnaC

/-- 2-bit nucleotide code used by `encode_dna` / `encode_kmer`:
A→00, T→01, C→10, G→11.  (The `switch` in the C code; an invalid character
raises, which the callers model separately.) -/
def nucleotideCode (c : Char) : Nat :=
  if c = 'A' then 0
  else if c = 'T' then 1
  else if c = 'C' then 2
  else 3

/-- Inverse of `nucleotideCode` restricted to 2-bit values, as in the decode
switches of `decode_dna` / `decode_kmer`. -/
def decodeBits (bits : Nat) : Char :=
  if bits = 0 then 'A'
  else if bits = 1 then 'T'
  else if bits = 2 then 'C'
  else 'G'

/-- A character accepted by `validate_dna_sequence` / `validate_kmer_sequence`. -/
def isNucleotide (c : Char) : Bool :=
  c = 'A' || c = 'T' || c = 'C' || c = 'G'

/-- `Dna` struct: stored length in nucleotides plus the packed
64-bit words of `bit_sequence` (2 bits per base, 32 bases per word). -/
structure Dna where
  length : Nat
  bit_sequence : List Nat
  deriving Repr, DecidableEq

/-- `Kmer` struct: length (≤ 32 nucleotides) plus a single packed 64-bit word. -/
structure Kmer where
  length : Nat
  bit_sequence : Nat
  deriving Repr, DecidableEq

/-! ### K-mer codec (`encode_kmer`, `decode_kmer`, `validate_kmer_sequence`,
`kmer_make`, `kmer_to_str`, `kmer_eq_internal`, `starts_with`) -/

/-- Loop body of `encode_kmer`: for each position `i`,
`bit_sequence |= code << (i*2)`; an invalid character raises. -/
def encodeKmerGo : List Char → Nat → Nat → Except String Nat
  | [], _, acc => .ok acc
  | c :: rest, i, acc =>
    if c = 'A' then encodeKmerGo rest (i + 1) acc
    else if c = 'T' then encodeKmerGo rest (i + 1) (acc ||| (1 <<< (i * 2)))
    else if c = 'C' then encodeKmerGo rest (i + 1) (acc ||| (2 <<< (i * 2)))
    else if c = 'G' then encodeKmerGo rest (i + 1) (acc ||| (3 <<< (i * 2)))
    else .error "Invalid character in K-mer"

/-- `encode_kmer(sequence, length)` with `length = |sequence|`.
The C guard `length <= -1 || length > 32` reduces to `length > 32`
since a `strlen` is never negative. -/
def encode_kmer (s : List Char) : Except String Nat :=
  if s.length > 32 then .error "K-mer length must be between 1 and 32 nucleotides"
  else encodeKmerGo s 0 0

/-- `decode_kmer(bit_sequence, length)`: reads 2 bits at offset `i*2` for each
position; rejects lengths outside 1..32 exactly as the C guard does. -/
def decode_kmer (bits : Nat) (length : Nat) : Except String (List Char) :=
  if length = 0 || length > 32 then
    .error "K-mer length must be between 1 and 32 nucleotides"
  else
    .ok ((List.range length).map fun i => decodeBits ((bits >>> (i * 2)) &&& 3))

/-- `validate_kmer_sequence`.  NOTE: in the source the empty check is commented
out (`if (sequence == NULL /*|| *sequence == '\0'*/)`), so the empty string
passes validation; only the length cap and the character check remain. -/
def validate_kmer_sequence (s : List Char) : Except String Unit :=
  if s.length > 32 then .error "K-mer length cannot exceed 32 nucleotides"
  else if s.all isNucleotide then .ok ()
  else .error "Invalid character in K-mer sequence"

/-- `kmer_make(sequence)`: validate, then encode into a single word. -/
def kmer_make (s : List Char) : Except String Kmer := do
  let length := s.length
  let _ ← validate_kmer_sequence s
  let bits ← encode_kmer s
  pure { length := length, bit_sequence := bits }

/-- `kmer_to_str`: empty string for a length-0 k-mer, otherwise `decode_kmer`. -/
def kmer_to_str (k : Kmer) : Except String (List Char) :=
  if k.length = 0 then .ok [] else decode_kmer k.bit_sequence k.length

/-- `kmer_eq_internal`: length equality plus a single 64-bit word comparison. -/
def kmer_eq_internal (k1 k2 : Kmer) : Bool :=
  if k1.length ≠ k2.length then false
  else if k1.bit_sequence ≠ k2.bit_sequence then false
  else true

/-- `starts_with(kmer, prefix)` from dna.c.  The C code computes
`mask = ((uint64_t)1 << prefix_bits) - 1` where `prefix_bits = 2*|p|`; for
`prefix_bits = 64` that shift is undefined behaviour in C, and on x86-64 the
hardware uses the shift count modulo 64, which is what a compiled binary does
and what we model (`% 64` below). -/
def starts_with (kmer pfx : Kmer) : Except String Bool :=
  if pfx.length > kmer.length then
    .error "Prefix length cannot exceed kmer length"
  else
    let pfxBits := pfx.length * 2
    let mask := (1 <<< (pfxBits % 64)) - 1
    .ok (pfx.bit_sequence == (kmer.bit_sequence &&& mask))

/-! ### Qkmer pattern codec (`validate_qkmer_pattern`, `qkmer_make`,
`nucleotide_matches`, `contains`) -/

/-- A character of the 16-symbol IUPAC alphabet accepted by
`validate_qkmer_pattern`. -/
def isIupac (c : Char) : Bool :=
  c = 'A' || c = 'T' || c = 'C' || c = 'G' || c = 'U' || c = 'W' || c = 'S' ||
  c = 'M' || c = 'K' || c = 'R' || c = 'Y' || c = 'B' || c = 'D' || c = 'H' ||
  c = 'V' || c = 'N'

/-- `validate_qkmer_pattern`: non-empty, at most 32 characters, all IUPAC. -/
def validate_qkmer_pattern (p : List Char) : Except String Unit :=
  if p.isEmpty then .error "qkmer pattern cannot be empty"
  else if p.length > 32 then .error "Qkmer pattern length cannot exceed 32 characters"
  else if p.all isIupac then .ok ()
  else .error "Invalid character in qkmer pattern"

/-- `qkmer_make`: a Qkmer stores the validated text itself. -/
def qkmer_make (p : List Char) : Except String (List Char) := do
  let _ ← validate_qkmer_pattern p
  pure p

/-- `nucleotide_matches(nucleotide, iupac)`: the IUPAC match table;
an unknown pattern character raises. -/
def nucleotide_matches (nucleotide iupac : Char) : Except String Bool :=
  if iupac = 'A' then .ok (nucleotide = 'A')
  else if iupac = 'T' then .ok (nucleotide = 'T')
  else if iupac = 'C' then .ok (nucleotide = 'C')
  else if iupac = 'G' then .ok (nucleotide = 'G')
  else if iupac = 'U' then .ok (nucleotide = 'U')
  else if iupac = 'W' then .ok (nucleotide = 'A' ∨ nucleotide = 'T')
  else if iupac = 'S' then .ok (nucleotide = 'C' ∨ nucleotide = 'G')
  else if iupac = 'M' then .ok (nucleotide = 'A' ∨ nucleotide = 'C')
  else if iupac = 'K' then .ok (nucleotide = 'G' ∨ nucleotide = 'T')
  else if iupac = 'R' then .ok (nucleotide = 'A' ∨ nucleotide = 'G')
  else if iupac = 'Y' then .ok (nucleotide = 'C' ∨ nucleotide = 'T')
  else if iupac = 'B' then .ok (nucleotide = 'C' ∨ nucleotide = 'G' ∨ nucleotide = 'T')
  else if iupac = 'D' then .ok (nucleotide = 'A' ∨ nucleotide = 'G' ∨ nucleotide = 'T')
  else if iupac = 'H' then .ok (nucleotide = 'A' ∨ nucleotide = 'C' ∨ nucleotide = 'T')
  else if iupac = 'V' then .ok (nucleotide = 'A' ∨ nucleotide = 'C' ∨ nucleotide = 'G')
  else if iupac = 'N' then .ok true
  else .error "Invalid character in pattern"

/-- Loop of `contains`: position `i` decodes 2 bits of the k-mer word and is
checked against the pattern character with `nucleotide_matches`; a mismatch
returns false immediately. -/
def containsGo : List Char → Nat → Kmer → Except String Bool
  | [], _, _ => .ok true
  | p :: rest, i, k => do
    let nucleotide := decodeBits ((k.bit_sequence >>> (i * 2)) &&& 3)
    let m ← nucleotide_matches nucleotide p
    if m then containsGo rest (i + 1) k else pure false

/-- `contains(qkmer, kmer)`: raises on a length mismatch, otherwise checks
every position with `nucleotide_matches` on the decoded k-mer symbols. -/
def contains (q : List Char) (k : Kmer) : Except String Bool :=
  if q.length ≠ k.length then .error "Qkmer pattern and kmer lengths do not match"
  else containsGo q 0 k

/-! ### Sequence codec (`encode_dna`, `decode_dna`, `validate_dna_sequence`,
`dna_make`, `dna_to_str`, `dna_eq_internal`) -/

/-- One assignment `bit_sequence[i/32] |= v << ((i*2) % 64)` of `encode_dna`. -/
def orWordAt (bs : List Nat) (i : Nat) (v : Nat) : List Nat :=
  bs.set (i / 32) ((bs.getD (i / 32) 0) ||| (v <<< ((i * 2) % 64)))

/-- Loop of `encode_dna`: `i` is the absolute nucleotide index; the 'A' case
writes nothing (its code is 00); an invalid character raises. -/
def encodeDnaGo : List Char → Nat → List Nat → Except String (List Nat)
  | [], _, bs => .ok bs
  | c :: rest, i, bs =>
    if c = 'A' then encodeDnaGo rest (i + 1) bs
    else if c = 'T' then encodeDnaGo rest (i + 1) (orWordAt bs i 1)
    else if c = 'C' then encodeDnaGo rest (i + 1) (orWordAt bs i 2)
    else if c = 'G' then encodeDnaGo rest (i + 1) (orWordAt bs i 3)
    else .error "Invalid character in DNA sequence"

/-- Number of 64-bit words `dna_make` allocates: `(2*length + 63) / 64`. -/
def dnaWordCount (length : Nat) : Nat :=
  (length * 2 + 63) / 64

/-- `encode_dna(sequence, bit_sequence, length)` starting from the zeroed
words allocated by `dna_make` (`palloc0`). -/
def encode_dna (s : List Char) : Except String (List Nat) :=
  encodeDnaGo s 0 (List.replicate (dnaWordCount s.length) 0)

/-- `decode_dna(bit_sequence, length)`: reads 2 bits at offset `(i*2) % 64` of
word `i / 32` for each position `i`. -/
def decode_dna (bs : List Nat) (length : Nat) : List Char :=
  (List.range length).map fun i =>
    decodeBits ((bs.getD (i / 32) 0 >>> ((i * 2) % 64)) &&& 3)

/-- `validate_dna_sequence`: rejects the empty string, then any non-ATCG
character. -/
def validate_dna_sequence (s : List Char) : Except String Unit :=
  if s.isEmpty then .error "DNA sequence cannot be empty"
  else if s.all isNucleotide then .ok ()
  else .error "Invalid character in DNA sequence"

/-- `dna_make(sequence)`: allocate zeroed words, validate, then encode. -/
def dna_make (s : List Char) : Except String Dna := do
  let length := s.length
  let _ ← validate_dna_sequence s
  let bs ← encode_dna s
  pure { length := length, bit_sequence := bs }

/-- `dna_to_str`: empty string for a length-0 sequence, otherwise `decode_dna`. -/
def dna_to_str (d : Dna) : List Char :=
  if d.length = 0 then [] else decode_dna d.bit_sequence d.length

/-- `dna_eq_internal`: length equality plus word-wise comparison of the first
`(2*length1 + 63)/64` packed words — never string comparison. -/
def dna_eq_internal (d1 d2 : Dna) : Bool :=
  let bitLength := (d1.length * 2 + 63) / 64
  if d1.length ≠ d2.length then false
  else (List.range bitLength).all fun i =>
    d1.bit_sequence.getD i 0 == d2.bit_sequence.getD i 0

/-! ### `generate_kmers` -/

/-- `funcctx->max_calls = dna->length - k + 1`, computed in unsigned 64-bit
arithmetic (`max_calls` is a `uint64`), hence with wrap-around when
`k > length + 1`. -/
def max_calls_model (length k : Nat) : Nat :=
  ((length + (2 ^ 64 - k % 2 ^ 64)) % 2 ^ 64 + 1) % 2 ^ 64

/-- The k-mer string produced at call counter `ci`: for `i < k` the code reads
word `(ci+i)/32` at bit offset `((ci+i)*2) % 64` of the stored `bit_sequence`
and decodes 2 bits. -/
def kmerWindow (d : Dna) (k ci : Nat) : List Char :=
  (List.range k).map fun i =>
    decodeBits ((d.bit_sequence.getD ((ci + i) / 32) 0 >>> (((ci + i) * 2) % 64)) &&& 3)

/-- `generate_kmers(dna, k)`: validates `1 ≤ k ≤ 32`, then returns one `Kmer`
per call counter below `max_calls`, each built by `kmer_make` from the decoded
window.  (The set-returning protocol is modelled as the list of all returned
rows in call order.) -/
def generate_kmers (d : Dna) (k : Nat) : Except String (List Kmer) :=
  if k = 0 || k > 32 then .error "Invalid k value: must be between 1 and 32"
  else
    (List.range (max_calls_model d.length k)).mapM fun ci =>
      kmer_make (kmerWindow d k ci)

/-! ### SP-GiST operator class (`spgist_kmer_picksplit`,
`spgist_kmer_inner_consistent`, `spgist_kmer_leaf_consistent`)

Node labels are `int16` Datums holding either a decoded character byte or the
sentinel `-1`; we model them as `Int`.  Scan-key strategies are the PostgreSQL
strategy numbers used in the switches. -/

/-- Scan-key strategy numbers: `BTLess…`, `BTLessEqual…`, `BTEqual…`,
`BTGreaterEqual…`, `BTGreater…`, `RTPrefix…` (`pfx`). -/
inductive Strategy
  | less | lessEqual | equal | greaterEqual | greater | pfx
  deriving Repr, DecidableEq

/-- `strncmp(a, b, n)` on NUL-free strings, returning the sign contract of the
C function (negative / zero / positive as -1 / 0 / 1); the end of a list plays
the role of the terminating NUL, which compares below every nucleotide
character. -/
def strncmp : List Char → List Char → Nat → Int
  | _, _, 0 => 0
  | [], [], _ + 1 => 0
  | [], _ :: _, _ + 1 => -1
  | _ :: _, [], _ + 1 => 1
  | x :: xs, y :: ys, n + 1 =>
    if x = y then strncmp xs ys n else if x < y then -1 else 1

/-- `spgNodePtr`: the per-tuple record sorted by `cmpNodePtr` in picksplit. -/
structure spgNodePtr where
  d : Kmer
  i : Nat
  c : Int
  deriving Repr, DecidableEq

instance : IsTotal spgNodePtr (fun a b => a.c ≤ b.c) :=
  ⟨fun a b => Int.le_total a.c b.c⟩

instance : IsTrans spgNodePtr (fun a b => a.c ≤ b.c) :=
  ⟨fun _ _ _ h1 h2 => le_trans h1 h2⟩

/-- The bounded common-prefix count of the picksplit loop
`while (len < bound && len < |b| && a[len] == b[len]) len++`. -/
def commonLen : List Char → List Char → Nat → Nat
  | a :: as, b :: bs, bound + 1 => if a = b then commonLen as bs bound + 1 else 0
  | _, _, _ => 0

/-- Output record of `spgist_kmer_picksplit` (`spgPickSplitOut`). -/
structure PickSplitOut where
  hasPfx : Bool
  pfxDatum : Option Kmer
  nNodes : Nat
  nodeLabels : List Int
  mapTuplesToNodes : List Nat
  leafTupleDatums : List Kmer
  deriving Repr, DecidableEq

/-- Grouping loop of picksplit over the sorted node array: a new label is
appended when `i == 0 || nodes[i].c != nodes[i-1].c` (tracked by `prevC`), and
each tuple's residual suffix and node index are written at its original
position.  The output arrays are `palloc`ed uninitialized; we start from
placeholder lists, and every index is written exactly once. -/
def picksplitGroup (common_length : Nat) :
    List spgNodePtr → List Int → List Nat → List Kmer → Option Int →
    Except String (List Int × List Nat × List Kmer)
  | [], labels, map, leaves, _ => .ok (labels, map, leaves)
  | ptr :: rest, labels, map, leaves, prevC => do
    let labels' := if prevC = some ptr.c then labels else labels ++ [ptr.c]
    let seq ← kmer_to_str ptr.d
    -- `if (common_length < strlen(sequence))` take the tail, else `kmer_make("")`:
    -- both are `kmer_make` of `drop common_length`.
    let suffix ← kmer_make (seq.drop common_length)
    picksplitGroup common_length rest labels'
      (map.set ptr.i (labels'.length - 1)) (leaves.set ptr.i suffix) (some ptr.c)

/-- `spgist_kmer_picksplit(in, out)`: longest common prefix over all values
capped at 10, emitted when non-empty; tuples labelled by the byte after the
prefix (`-1` when exhausted), sorted by label and grouped; each leaf stores
the suffix of its value after the common prefix. -/
def spgist_kmer_picksplit : List Kmer → Except String PickSplitOut
  | [] => .error "picksplit requires at least one tuple"
  | first_kmer :: rest => do
    let first_sequence ← kmer_to_str first_kmer
    -- common-prefix loop, starting from the full length of the first value
    let commonAll ← rest.foldlM (fun acc k => do
        let seq ← kmer_to_str k
        pure (commonLen first_sequence seq acc)) first_kmer.length
    let common_length := min commonAll 10
    let pfxOut ← if 0 < common_length then do
        let pk ← kmer_make (first_sequence.take common_length)
        pure (some pk)
      else pure none
    let nodes ← (first_kmer :: rest).enum.mapM (fun p => do
        let seq ← kmer_to_str p.2
        pure { d := p.2, i := p.1,
               c := if common_length < p.2.length
                    then ((seq.getD common_length 'A').toNat : Int)
                    else (-1 : Int) : spgNodePtr })
    let sorted := List.insertionSort (fun a b => a.c ≤ b.c) nodes
    let n := (first_kmer :: rest).length
    let (labels, map, leaves) ← picksplitGroup common_length sorted []
        (List.replicate n 0)
        (List.replicate n ({ length := 0, bit_sequence := 0 } : Kmer)) none
    pure { hasPfx := decide (0 < common_length), pfxDatum := pfxOut,
           nNodes := labels.length, nodeLabels := labels,
           mapTuplesToNodes := map, leafTupleDatums := leaves }

/-- Per-child, per-key consistency test of `spgist_kmer_inner_consistent`:
extend the accumulated string (`base`, the reconstructed value followed by the
node prefix) with the child's label when it is not the `-1` sentinel, compare
with `strncmp` up to the shorter length, force the comparison to ±1 on a
length difference, then apply the strategy switch.  (`extended.length` equals
the C `currentLength` because the copied strings have exactly the
reconstructed and prefix lengths.) -/
def innerChildConsistent (strategy : Strategy) (base : List Char) (label : Int)
    (query : List Char) : Bool :=
  let extended := if 0 ≤ label then base ++ [Char.ofNat label.toNat] else base
  let currentLength := extended.length
  let queryLength := query.length
  let cmp0 := strncmp extended query (min currentLength queryLength)
  let cmp := if cmp0 = 0 ∧ currentLength ≠ queryLength then
               (if currentLength < queryLength then (-1 : Int) else 1)
             else cmp0
  match strategy with
  | .less => decide (cmp ≤ 0)
  | .lessEqual => decide (cmp ≤ 0)
  | .equal => decide (cmp = 0)
  | .greaterEqual => decide (0 ≤ cmp)
  | .greater => decide (0 ≤ cmp)
  | .pfx => decide (cmp = 0 ∧ queryLength ≤ currentLength)

/-- `spgist_kmer_inner_consistent(in, out)`: for each child node, keep it when
every scan key passes `innerChildConsistent`; a kept child `i` reports
`levelAdd = currentLength - level` and the reconstructed value for the child
(the extended string re-encoded, with its length field set to
`currentLength`). -/
def spgist_kmer_inner_consistent (level : Nat) (reconstructedValue : Option Kmer)
    (pfxDatum : Option Kmer) (nodeLabels : List Int)
    (scankeys : List (Strategy × Kmer)) :
    Except String (List (Nat × Int × Kmer)) := do
  let recPair ← match reconstructedValue with
    | some rk => do
      let s ← kmer_to_str rk
      pure (s, rk.length)
    | none => pure (([] : List Char), 0)
  let pfxPair ← match pfxDatum with
    | some pk => do
      let s ← kmer_to_str pk
      pure (s, pk.length)
    | none => pure (([] : List Char), 0)
  let base := recPair.1 ++ pfxPair.1
  nodeLabels.enum.foldlM (fun acc p => do
    let label := p.2
    let consistent ← scankeys.allM (fun key => do
        let qs ← kmer_to_str key.2
        pure (innerChildConsistent key.1 base label qs))
    if consistent then do
      let extended := if 0 ≤ label then base ++ [Char.ofNat label.toNat] else base
      let currentLength := recPair.2 + pfxPair.2 + (if 0 ≤ label then 1 else 0)
      let rk ← kmer_make extended
      pure (acc ++ [(p.1, (currentLength : Int) - (level : Int),
                     { rk with length := currentLength })])
    else
      pure acc) []

/-- `spgist_kmer_leaf_consistent(in, out)`: rebuild the full value from the
reconstructed string (exactly `level` bytes are copied; the source Assert
guarantees the reconstructed length equals `level`) and the leaf suffix, then
check every scan key against it; returns the verdict and the rebuilt leaf
value. -/
def spgist_kmer_leaf_consistent (level : Nat) (reconstructedValue : Option Kmer)
    (leafDatum : Kmer) (scankeys : List (Strategy × Kmer)) :
    Except String (Bool × Kmer) := do
  let recStr ← match reconstructedValue with
    | some rk => kmer_to_str rk
    | none => pure ([] : List Char)
  let fullLength := level + leafDatum.length
  let leafStr ← kmer_to_str leafDatum
  let fullSequence := recStr.take level ++ leafStr
  let fullKmer ← kmer_make fullSequence
  let result ← scankeys.allM (fun key => do
    let qs ← kmer_to_str key.2
    let queryLength := key.2.length
    let cmp0 := strncmp fullSequence qs (min fullLength queryLength)
    let cmp := if cmp0 = 0 ∧ fullLength ≠ queryLength then
                 (if fullLength < queryLength then (-1 : Int) else 1)
               else cmp0
    match key.1 with
    | .pfx => pure (decide (strncmp fullSequence qs queryLength = 0))
    | .less => pure (decide (cmp < 0))
    | .lessEqual => pure (decide (cmp ≤ 0))
    | .equal => pure (decide (cmp = 0))
    | .greaterEqual => pure (decide (0 ≤ cmp))
    | .greater => pure (decide (0 < cmp)))
  pure (result, fullKmer)

/-! ### An index scan over a freshly split node, and the brute-force scan -/

/-- Search the one-level tree produced by one `spgist_kmer_picksplit` call over
all inserted values (the state of the index right after the root leaf page is
split): run `spgist_kmer_inner_consistent` at the root inner tuple, then
`spgist_kmer_leaf_consistent` on every leaf tuple grouped under each retained
child, collecting the reconstructed leaf values that pass. -/
def buildAndSearch (ss : List (List Char)) (strategy : Strategy)
    (query : List Char) : Except String (List Kmer) := do
  let datums ← ss.mapM kmer_make
  let qk ← kmer_make query
  let ps ← spgist_kmer_picksplit datums
  let inner ← spgist_kmer_inner_consistent 0 none ps.pfxDatum ps.nodeLabels
      [(strategy, qk)]
  inner.foldlM (fun acc child => do
    let idxs := (List.range datums.length).filter
        (fun j => ps.mapTuplesToNodes.getD j 0 == child.1)
    idxs.foldlM (fun acc2 j => do
      let r ← spgist_kmer_leaf_consistent (child.2.1).toNat (some child.2.2)
          (ps.leafTupleDatums.getD j { length := 0, bit_sequence := 0 })
          [(strategy, qk)]
      pure (if r.1 then acc2 ++ [r.2] else acc2)) acc) []

/-- Brute-force scan applying the equality operator (`kmer_eq_internal`, the
function behind `=`) to every inserted value. -/
def linearScanEq (ss : List (List Char)) (query : List Char) :
    Except String (List Kmer) := do
  let datums ← ss.mapM kmer_make
  let qk ← kmer_make query
  pure (datums.filter fun v => kmer_eq_internal v qk)

/-! ### Specification-level helpers -/

/-- Base-4 value of a little-endian digit list: the arithmetic meaning of a
packed word holding the listed 2-bit codes. -/
def base4 : List Nat → Nat
  | [] => 0
  | d :: ds => d + 4 * base4 ds

/-- The 2-bit codes of one 32-base chunk of a sequence (word `w` of the packed
representation). -/
def chunkCodes (s : List Char) (w : Nat) : List Nat :=
  ((s.drop (32 * w)).take 32).map nucleotideCode

/-- The part of chunk `w` filled after the first `i` characters of `s` have
been encoded (loop invariant of `encode_dna`). -/
def partialChunk (s : List Char) (i w : Nat) : List Char :=
  (s.drop (32 * w)).take (min 32 (i - 32 * w))

/-- A string accepted by `validate_dna_sequence`. -/
def ValidDnaStr (s : List Char) : Prop :=
  s ≠ [] ∧ ∀ c ∈ s, isNucleotide c = true

/-- A string accepted by `validate_kmer_sequence`. -/
def ValidKmerStr (s : List Char) : Prop :=
  s.length ≤ 32 ∧ ∀ c ∈ s, isNucleotide c = true

/-- The struct `kmer_make` returns on a valid string. -/
def mkKmer (s : List Char) : Kmer :=
  { length := s.length, bit_sequence := base4 (s.map nucleotideCode) }

/-- The node label picksplit assigns to a value whose decoded string is `s`
when the capped common prefix has length `c`: the byte after the prefix, or
the sentinel `-1` when the value is fully consumed by the prefix. -/
def labelAt (c : Nat) (s : List Char) : Int :=
  if c < s.length then ((s.getD c 'A').toNat : Int) else -1

/-- The placeholder value standing for an uninitialized (`palloc`ed) slot of
the picksplit output arrays; every slot is written before being read. -/
def kdflt : Kmer :=
  { length := 0, bit_sequence := 0 }

/-- Adjacent deduplication relative to a previously seen label: the pure
content of the `i == 0 || nodes[i].c != nodes[i-1].c` test of the grouping
loop. -/
def dedupFrom : Option Int → List Int → List Int
  | _, [] => []
  | prev, c :: cs =>
    if prev = some c then dedupFrom (some c) cs else c :: dedupFrom (some c) cs

/-- The IUPAC match table exactly as the specification states it
(A/C/G/T/U map to themselves; W=A,T; S=C,G; M=A,C; K=G,T; R=A,G; Y=C,T;
B=C,G,T; D=A,G,T; H=A,C,T; V=A,C,G; N=any); spec-side counterpart of
`nucleotide_matches` used to state pattern-containment correctness. -/
def iupacMatchesSpec (n c : Char) : Bool :=
  if c = 'A' then n = 'A'
  else if c = 'T' then n = 'T'
  else if c = 'C' then n = 'C'
  else if c = 'G' then n = 'G'
  else if c = 'U' then n = 'U'
  else if c = 'W' then n = 'A' ∨ n = 'T'
  else if c = 'S' then n = 'C' ∨ n = 'G'
  else if c = 'M' then n = 'A' ∨ n = 'C'
  else if c = 'K' then n = 'G' ∨ n = 'T'
  else if c = 'R' then n = 'A' ∨ n = 'G'
  else if c = 'Y' then n = 'C' ∨ n = 'T'
  else if c = 'B' then n = 'C' ∨ n = 'G' ∨ n = 'T'
  else if c = 'D' then n = 'A' ∨ n = 'G' ∨ n = 'T'
  else if c = 'H' then n = 'A' ∨ n = 'C' ∨ n = 'T'
  else if c = 'V' then n = 'A' ∨ n = 'C' ∨ n = 'G'
  else if c = 'N' then true
  else false

/-- The inner-consistency retention rule as the specification words it
(modelled from the spec, for comparison with `innerChildConsistent`):
equality keeps a child whenever the extended prefix byte-equals the query up
to the shorter of the two lengths, a length difference disqualifying only a
fully resolved child (sentinel label `-1`, no further symbol); starts-with
keeps a child unconditionally once the accumulated depth reaches the query
length, and otherwise whenever the comparable span matches.  Strategies
outside the claim's scope are mapped to `false`. -/
def c2ClaimRetained (strategy : Strategy) (base : List Char) (label : Int)
    (query : List Char) : Bool :=
  let extended := if 0 ≤ label then base ++ [Char.ofNat label.toNat] else base
  let n := min extended.length query.length
  let spanEq : Bool := extended.take n = query.take n
  match strategy with
  | .equal => spanEq && (decide (0 ≤ label) || extended.length == query.length)
  | .pfx => if query.length ≤ extended.length then true else spanEq
  | _ => false

end DnaC

namespace DnaC

/-! ### Arithmetic lemmas for the packed codec -/

theorem or_shl_eq_add {acc v k : Nat} (h : acc < 2 ^ k) :
    acc ||| (v <<< k) = acc + v * 2 ^ k := by
  rw [Nat.shiftLeft_eq, Nat.lor_comm, Nat.mul_comm v (2 ^ k),
    ← Nat.mul_add_lt_is_or h, Nat.add_comm]

theorem base4_lt {ds : List Nat} (h : ∀ d ∈ ds, d < 4) :
    base4 ds < 4 ^ ds.length := by
  induction ds with
  | nil => simp [base4]
  | cons d ds ih =>
    have hd : d < 4 := h d (by simp)
    have ht : base4 ds < 4 ^ ds.length := ih fun x hx => h x (by simp [hx])
    simp only [base4, List.length_cons, pow_succ]
    omega

theorem base4_append (ds : List Nat) (d : Nat) :
    base4 (ds ++ [d]) = base4 ds + d * 4 ^ ds.length := by
  induction ds with
  | nil => simp [base4]
  | cons x xs ih =>
    rw [List.cons_append]
    simp only [base4, List.length_cons, pow_succ]
    rw [ih]
    ring

theorem base4_digit {ds : List Nat} (h : ∀ d ∈ ds, d < 4) :
    ∀ i, i < ds.length → base4 ds / 4 ^ i % 4 = ds.getD i 0 := by
  induction ds with
  | nil => intro i hi; simp at hi
  | cons d ds ih =>
    intro i hi
    have hd : d < 4 := h d (by simp)
    match i with
    | 0 =>
      simp only [pow_zero, Nat.div_one, base4, List.getD_cons_zero]
      omega
    | i + 1 =>
      have hstep : (d + 4 * base4 ds) / 4 = base4 ds := by omega
      simp only [base4, List.getD_cons_succ, pow_succ']
      rw [← Nat.div_div_eq_div_mul, hstep]
      exact ih (fun x hx => h x (by simp [hx])) i (by simpa using hi)

theorem shr_and3_eq_digit (x i : Nat) : (x >>> (i * 2)) &&& 3 = x / 4 ^ i % 4 := by
  rw [Nat.shiftRight_eq_div_pow]
  rw [show (3 : Nat) = 2 ^ 2 - 1 by norm_num, Nat.and_pow_two_sub_one_eq_mod]
  rw [show 2 ^ (i * 2) = 4 ^ i by rw [Nat.mul_comm i 2, Nat.pow_mul]]

theorem two_pow_mul_two_eq_four_pow (i : Nat) : 2 ^ (i * 2) = 4 ^ i := by
  rw [Nat.mul_comm i 2, Nat.pow_mul]

/-- Case analysis on a valid nucleotide character. -/
theorem nucleotide_cases {c : Char} (h : isNucleotide c = true) :
    c = 'A' ∨ c = 'T' ∨ c = 'C' ∨ c = 'G' := by
  simp only [isNucleotide, Bool.or_eq_true, decide_eq_true_eq] at h
  tauto

theorem decodeBits_code {c : Char} (h : isNucleotide c = true) :
    decodeBits (nucleotideCode c) = c := by
  rcases nucleotide_cases h with h | h | h | h <;> subst h <;> rfl

theorem nucleotideCode_lt {c : Char} : nucleotideCode c < 4 := by
  unfold nucleotideCode
  split <;> try omega
  split <;> try omega
  split <;> omega

theorem codes_lt (s : List Char) : ∀ d ∈ s.map nucleotideCode, d < 4 := by
  intro d hd
  rcases List.mem_map.mp hd with ⟨c, _, rfl⟩
  exact nucleotideCode_lt

/-! ### K-mer round trip -/

theorem encodeKmerGo_eq (s : List Char) : ∀ (i acc : Nat),
    (∀ c ∈ s, isNucleotide c = true) → acc < 4 ^ i →
    encodeKmerGo s i acc = .ok (acc + base4 (s.map nucleotideCode) * 4 ^ i) := by
  induction s with
  | nil => intro i acc _ _; simp [encodeKmerGo, base4]
  | cons c rest ih =>
    intro i acc hv hacc
    have hc := hv c (by simp)
    have hrest : ∀ x ∈ rest, isNucleotide x = true := fun x hx => hv x (by simp [hx])
    have hpow : acc < 2 ^ (i * 2) := by rwa [two_pow_mul_two_eq_four_pow]
    have hmono : (4 : Nat) ^ i ≤ 4 ^ (i + 1) :=
      Nat.pow_le_pow_right (by norm_num) (Nat.le_succ i)
    rcases nucleotide_cases hc with h | h | h | h <;> subst h
    · rw [show encodeKmerGo ('A' :: rest) i acc = encodeKmerGo rest (i + 1) acc from rfl]
      rw [ih (i + 1) acc hrest (lt_of_lt_of_le hacc hmono)]
      simp only [List.map_cons, base4, show nucleotideCode 'A' = 0 from rfl, pow_succ]
      congr 1
      ring
    · rw [show encodeKmerGo ('T' :: rest) i acc
          = encodeKmerGo rest (i + 1) (acc ||| (1 <<< (i * 2))) from rfl]
      rw [or_shl_eq_add hpow, two_pow_mul_two_eq_four_pow]
      have hlt : acc + 1 * 4 ^ i < 4 ^ (i + 1) := by
        rw [pow_succ]; omega
      rw [ih (i + 1) _ hrest hlt]
      congr 1
      have : base4 (List.map nucleotideCode ('T' :: rest))
          = 1 + 4 * base4 (rest.map nucleotideCode) := by
        simp [base4, show nucleotideCode 'T' = 1 from rfl]
      rw [this, pow_succ]
      ring
    · rw [show encodeKmerGo ('C' :: rest) i acc
          = encodeKmerGo rest (i + 1) (acc ||| (2 <<< (i * 2))) from rfl]
      rw [or_shl_eq_add hpow, two_pow_mul_two_eq_four_pow]
      have hlt : acc + 2 * 4 ^ i < 4 ^ (i + 1) := by
        rw [pow_succ]; omega
      rw [ih (i + 1) _ hrest hlt]
      congr 1
      have : base4 (List.map nucleotideCode ('C' :: rest))
          = 2 + 4 * base4 (rest.map nucleotideCode) := by
        simp [base4, show nucleotideCode 'C' = 2 from rfl]
      rw [this, pow_succ]
      ring
    · rw [show encodeKmerGo ('G' :: rest) i acc
          = encodeKmerGo rest (i + 1) (acc ||| (3 <<< (i * 2))) from rfl]
      rw [or_shl_eq_add hpow, two_pow_mul_two_eq_four_pow]
      have hlt : acc + 3 * 4 ^ i < 4 ^ (i + 1) := by
        rw [pow_succ]; omega
      rw [ih (i + 1) _ hrest hlt]
      congr 1
      have : base4 (List.map nucleotideCode ('G' :: rest))
          = 3 + 4 * base4 (rest.map nucleotideCode) := by
        simp [base4, show nucleotideCode 'G' = 3 from rfl]
      rw [this, pow_succ]
      ring

theorem encode_kmer_eq {s : List Char} (hv : ∀ c ∈ s, isNucleotide c = true)
    (hl : s.length ≤ 32) :
    encode_kmer s = .ok (base4 (s.map nucleotideCode)) := by
  unfold encode_kmer
  rw [if_neg (by omega)]
  rw [encodeKmerGo_eq s 0 0 hv (by norm_num)]
  simp

theorem decode_kmer_eq {s : List Char} (hv : ∀ c ∈ s, isNucleotide c = true)
    (h0 : s ≠ []) (hl : s.length ≤ 32) :
    decode_kmer (base4 (s.map nucleotideCode)) s.length = .ok s := by
  unfold decode_kmer
  have hlen : ¬(s.length = 0 || s.length > 32) = true := by
    simp only [Bool.or_eq_true, decide_eq_true_eq]
    push_neg
    exact ⟨fun h => h0 (List.eq_nil_of_length_eq_zero h), by omega⟩
  rw [if_neg hlen]
  congr 1
  apply List.ext_getElem (by simp)
  intro i hi1 hi2
  have hi : i < s.length := by simpa using hi1
  simp only [List.getElem_map, List.getElem_range]
  rw [shr_and3_eq_digit, base4_digit (codes_lt s) i (by simpa using hi)]
  rw [List.getD_eq_getElem?_getD, List.getElem?_eq_getElem (by simpa using hi)]
  simp only [Option.getD_some, List.getElem_map]
  exact decodeBits_code (hv _ (List.getElem_mem hi))

/-- `kmer_make` on a valid string: the encoded struct. -/
theorem kmer_make_eq {s : List Char} (hv : ∀ c ∈ s, isNucleotide c = true)
    (hl : s.length ≤ 32) :
    kmer_make s = .ok { length := s.length,
                        bit_sequence := base4 (s.map nucleotideCode) } := by
  have h1 : validate_kmer_sequence s = .ok () := by
    unfold validate_kmer_sequence
    rw [if_neg (by omega), if_pos (by simpa [List.all_eq_true] using hv)]
  unfold kmer_make
  rw [h1, encode_kmer_eq hv hl]
  rfl

/-- `kmer_to_str` is a left inverse of `kmer_make` on valid strings. -/
theorem kmer_to_str_make {s : List Char} (hv : ∀ c ∈ s, isNucleotide c = true)
    (hl : s.length ≤ 32) :
    kmer_to_str { length := s.length,
                  bit_sequence := base4 (s.map nucleotideCode) } = .ok s := by
  unfold kmer_to_str
  by_cases h0 : s = []
  · subst h0; simp
  · rw [if_neg (by simpa using fun h => h0 (List.eq_nil_of_length_eq_zero h))]
    exact decode_kmer_eq hv h0 hl

/-! ### Sequence (`encode_dna`) loop invariant and round trip -/

theorem partialChunk_succ_ne {s : List Char} {i w : Nat} (hw : w ≠ i / 32) :
    partialChunk s (i + 1) w = partialChunk s i w := by
  unfold partialChunk
  congr 1
  omega

theorem partialChunk_succ_self {s : List Char} {i : Nat} (hi : i < s.length) :
    partialChunk s (i + 1) (i / 32) = partialChunk s i (i / 32) ++ [s.getD i 'A'] := by
  unfold partialChunk
  have h1 : min 32 (i + 1 - 32 * (i / 32)) = i % 32 + 1 := by omega
  have h2 : min 32 (i - 32 * (i / 32)) = i % 32 := by omega
  rw [h1, h2, List.take_succ, List.getElem?_drop,
    show 32 * (i / 32) + i % 32 = i by omega, List.getElem?_eq_getElem hi]
  simp [List.getD_eq_getElem?_getD, List.getElem?_eq_getElem hi]

theorem partialChunk_length_self {s : List Char} {i : Nat} (hi : i < s.length) :
    (partialChunk s i (i / 32)).length = i % 32 := by
  unfold partialChunk
  simp only [List.length_take, List.length_drop]
  omega

theorem partialChunk_full {s : List Char} (w : Nat) :
    (partialChunk s s.length w).map nucleotideCode = chunkCodes s w := by
  unfold partialChunk chunkCodes
  congr 1
  by_cases h : 32 ≤ s.length - 32 * w
  · rw [min_eq_left h]
  · rw [min_eq_right (by omega)]
    rw [List.take_of_length_le (by simp), List.take_of_length_le (by simp; omega)]

theorem wordIndex_lt {i len : Nat} (hi : i < len) : i / 32 < dnaWordCount len := by
  unfold dnaWordCount
  omega

theorem encodeDnaGo_invariant (s : List Char)
    (hv : ∀ c ∈ s, isNucleotide c = true) :
    ∀ (n i : Nat) (bs : List Nat), n = s.length - i → i ≤ s.length →
    bs.length = dnaWordCount s.length →
    (∀ w, bs.getD w 0 = base4 ((partialChunk s i w).map nucleotideCode)) →
    ∃ out, encodeDnaGo (s.drop i) i bs = .ok out ∧
      out.length = dnaWordCount s.length ∧
      (∀ w, out.getD w 0 = base4 (chunkCodes s w)) := by
  intro n
  induction n with
  | zero =>
    intro i bs hn hile hlen hinv
    have hieq : i = s.length := by omega
    subst hieq
    refine ⟨bs, ?_, hlen, ?_⟩
    · rw [List.drop_length]; rfl
    · intro w
      rw [hinv w, partialChunk_full]
  | succ n ih =>
    intro i bs hn hile hlen hinv
    have hi : i < s.length := by omega
    have hdrop : s.drop i = s[i] :: s.drop (i + 1) := List.drop_eq_getElem_cons hi
    have hc : isNucleotide s[i] = true := hv _ (List.getElem_mem hi)
    have hgetD : s.getD i 'A' = s[i] := by
      simp [List.getD_eq_getElem?_getD, List.getElem?_eq_getElem hi]
    have hw0lt : i / 32 < bs.length := by rw [hlen]; exact wordIndex_lt hi
    have h64 : (i * 2) % 64 = (i % 32) * 2 := by omega
    have hplen : ((partialChunk s i (i / 32)).map nucleotideCode).length = i % 32 := by
      rw [List.length_map, partialChunk_length_self hi]
    have holdlt : bs.getD (i / 32) 0 < 2 ^ ((i % 32) * 2) := by
      rw [hinv (i / 32), two_pow_mul_two_eq_four_pow, ← hplen]
      exact base4_lt (codes_lt _)
    -- common step: after OR-ing code v at position i, the invariant advances
    have hstep : ∀ v : Nat, nucleotideCode s[i] = v →
        (orWordAt bs i v).length = dnaWordCount s.length ∧
        (∀ w, (orWordAt bs i v).getD w 0 =
          base4 ((partialChunk s (i + 1) w).map nucleotideCode)) := by
      intro v hcode
      constructor
      · rw [orWordAt, List.length_set, hlen]
      · intro w
        by_cases hw : w = i / 32
        · subst hw
          rw [orWordAt, h64, List.getD_eq_getElem?_getD,
            List.getElem?_set_self hw0lt, Option.getD_some]
          rw [or_shl_eq_add holdlt, two_pow_mul_two_eq_four_pow]
          rw [partialChunk_succ_self hi]
          simp only [List.map_append, List.map_cons, List.map_nil]
          rw [base4_append, hinv (i / 32), hplen, hgetD]
          simp [hcode]
        · rw [orWordAt, List.getD_eq_getElem?_getD,
            List.getElem?_set_ne (fun h => hw (by omega)), partialChunk_succ_ne hw]
          rw [← List.getD_eq_getElem?_getD, hinv w]
    rcases nucleotide_cases hc with h | h | h | h
    · -- 'A': nothing is written; the new digit is 0
      have hinv' : ∀ w, bs.getD w 0 =
          base4 ((partialChunk s (i + 1) w).map nucleotideCode) := by
        intro w
        by_cases hw : w = i / 32
        · subst hw
          rw [partialChunk_succ_self hi]
          simp only [List.map_append, List.map_cons, List.map_nil]
          rw [base4_append, hinv (i / 32), hplen, hgetD, h]
          simp [show nucleotideCode 'A' = 0 from rfl]
        · rw [partialChunk_succ_ne hw, hinv w]
      rcases ih (i + 1) bs (by omega) (by omega) hlen hinv' with ⟨out, hout, hrest⟩
      refine ⟨out, ?_, hrest⟩
      rw [hdrop, h]
      exact hout
    · -- 'T'
      rcases hstep 1 (by rw [h]; rfl) with ⟨hlen', hinv'⟩
      rcases ih (i + 1) (orWordAt bs i 1) (by omega) (by omega) hlen' hinv' with
        ⟨out, hout, hrest⟩
      refine ⟨out, ?_, hrest⟩
      rw [hdrop, h]
      exact hout
    · -- 'C'
      rcases hstep 2 (by rw [h]; rfl) with ⟨hlen', hinv'⟩
      rcases ih (i + 1) (orWordAt bs i 2) (by omega) (by omega) hlen' hinv' with
        ⟨out, hout, hrest⟩
      refine ⟨out, ?_, hrest⟩
      rw [hdrop, h]
      exact hout
    · -- 'G'
      rcases hstep 3 (by rw [h]; rfl) with ⟨hlen', hinv'⟩
      rcases ih (i + 1) (orWordAt bs i 3) (by omega) (by omega) hlen' hinv' with
        ⟨out, hout, hrest⟩
      refine ⟨out, ?_, hrest⟩
      rw [hdrop, h]
      exact hout

/-- `encode_dna` on a valid string: every packed word carries the base-4 value
of its 32-character chunk. -/
theorem encode_dna_eq {s : List Char} (hv : ∀ c ∈ s, isNucleotide c = true) :
    ∃ ws, encode_dna s = .ok ws ∧ ws.length = dnaWordCount s.length ∧
      ∀ w, ws.getD w 0 = base4 (chunkCodes s w) := by
  have h0 : ∀ w, (List.replicate (dnaWordCount s.length) 0).getD w 0
      = base4 ((partialChunk s 0 w).map nucleotideCode) := by
    intro w
    have : partialChunk s 0 w = [] := by
      unfold partialChunk
      rw [show min 32 (0 - 32 * w) = 0 by omega]
      rfl
    rw [this]
    simp only [List.map_nil, base4]
    rw [List.getD_eq_getElem?_getD, List.getElem?_replicate]
    split <;> rfl
  have := encodeDnaGo_invariant s hv (s.length) 0
    (List.replicate (dnaWordCount s.length) 0) (by omega) (by omega)
    (by simp) h0
  rcases this with ⟨out, hout, hlen, hval⟩
  exact ⟨out, by rw [← hout]; rfl, hlen, hval⟩

/-- Reading back position `j` from the packed words recovers the 2-bit code of
the `j`-th character: the digit-extraction step shared by `decode_dna`,
`generate_kmers` and `contains`-style readers. -/
theorem word_digit {s : List Char} {ws : List Nat}
    (hval : ∀ w, ws.getD w 0 = base4 (chunkCodes s w)) {j : Nat}
    (hj : j < s.length) :
    (ws.getD (j / 32) 0 >>> ((j * 2) % 64)) &&& 3 = nucleotideCode s[j] := by
  rw [hval, show (j * 2) % 64 = (j % 32) * 2 by omega, shr_and3_eq_digit]
  unfold chunkCodes
  have hchlen : j % 32 < (((s.drop (32 * (j / 32))).take 32).map nucleotideCode).length := by
    simp only [List.length_map, List.length_take, List.length_drop]
    omega
  rw [base4_digit (codes_lt _) (j % 32) hchlen]
  rw [List.getD_eq_getElem?_getD, List.getElem?_map,
    List.getElem?_take_of_lt (by omega), List.getElem?_drop,
    show 32 * (j / 32) + j % 32 = j by omega, List.getElem?_eq_getElem hj]
  rfl

/-- `decode_dna` inverts `encode_dna` on every word list carrying the encoded
chunks. -/
theorem decode_dna_eq {s : List Char} {ws : List Nat}
    (hv : ∀ c ∈ s, isNucleotide c = true)
    (hval : ∀ w, ws.getD w 0 = base4 (chunkCodes s w)) :
    decode_dna ws s.length = s := by
  unfold decode_dna
  apply List.ext_getElem (by simp)
  intro i hi1 hi2
  have hi : i < s.length := by simpa using hi1
  simp only [List.getElem_map, List.getElem_range]
  rw [word_digit hval hi]
  exact decodeBits_code (hv _ (List.getElem_mem hi))

/-- `dna_make` on a valid string: it succeeds, stores the exact length, and
its packed words carry the chunk values. -/
theorem dna_make_eq {s : List Char} (hv : ValidDnaStr s) :
    ∃ d, dna_make s = .ok d ∧ d.length = s.length ∧
      d.bit_sequence.length = dnaWordCount s.length ∧
      (∀ w, d.bit_sequence.getD w 0 = base4 (chunkCodes s w)) := by
  rcases hv with ⟨h0, hv⟩
  have hvd : validate_dna_sequence s = .ok () := by
    unfold validate_dna_sequence
    rw [if_neg (by simpa [List.isEmpty_iff] using h0),
      if_pos (by simpa [List.all_eq_true] using hv)]
  rcases encode_dna_eq hv with ⟨ws, hws, hlen, hval⟩
  refine ⟨{ length := s.length, bit_sequence := ws }, ?_, rfl, hlen, hval⟩
  unfold dna_make
  rw [hvd, hws]
  rfl

/-! ## Claim C3 -/

/-- C3: for every valid sequence text `s` (non-empty, characters in ATCG),
decoding the encoding reproduces `s` exactly: `decode_dna(encode_dna(s), |s|)
= s` for unbounded sequences, and `decode_kmer(encode_kmer(s, |s|), |s|) = s`
for k-mers of length at most 32.  The mapping A→00, T→01, C→10, G→11 written
at bit offset `(i*2) mod 64` of word `i/32` is the definition of `encode_dna`
/ `encodeDnaGo` / `orWordAt` in this file. -/
theorem C3_roundtrip (s : List Char) (hval : ValidDnaStr s) :
    ((encode_dna s).map fun ws => decode_dna ws s.length) = .ok s ∧
    (s.length ≤ 32 →
      ((encode_kmer s).bind fun bits => decode_kmer bits s.length) = .ok s) := by
  constructor
  · rcases encode_dna_eq hval.2 with ⟨ws, hws, _, hchunks⟩
    rw [hws]
    show Except.ok (decode_dna ws s.length) = Except.ok s
    rw [decode_dna_eq hval.2 hchunks]
  · intro h32
    rw [encode_kmer_eq hval.2 h32]
    show decode_kmer (base4 (s.map nucleotideCode)) s.length = .ok s
    exact decode_kmer_eq hval.2 hval.1 h32

/-- Witness for C3 at the concrete valid input "ATCG". -/
theorem C3_roundtrip_witness :
    ((encode_dna ['A', 'T', 'C', 'G']).map fun ws => decode_dna ws 4) =
      .ok ['A', 'T', 'C', 'G'] ∧
    ((encode_kmer ['A', 'T', 'C', 'G']).bind fun bits => decode_kmer bits 4) =
      .ok ['A', 'T', 'C', 'G'] := by
  have h := C3_roundtrip ['A', 'T', 'C', 'G'] ⟨by decide, by decide⟩
  exact ⟨h.1, h.2 (by decide)⟩

/-! ## Claim C4 (corrected) -/

/-- C4 counterexample: the claim says empty input is rejected with an
empty-input error by `kmer_make` as well, but the empty check in
`validate_kmer_sequence` is commented out in the source, so `kmer_make("")`
succeeds and yields a length-0 k-mer. -/
theorem C4_empty_kmer_counterexample :
    kmer_make [] = .ok { length := 0, bit_sequence := 0 } := rfl

/-- C4 as amended: encoding validates text at the boundary — any non-ATCG
character is rejected with the invalid-symbol error by both `dna_make` and
`kmer_make`; empty input is rejected (with the empty-input error) by
`dna_make` only, while `kmer_make` accepts it as a length-0 k-mer; text
longer than 32 symbols is rejected by `kmer_make` with the length-exceeded
error while a 32-symbol string succeeds; and no invalid input is silently
truncated or coerced: every successful encoding preserves the exact length
and implies the input was valid. -/
theorem C4_validation_amended :
    (dna_make [] = .error "DNA sequence cannot be empty") ∧
    (∀ s : List Char, s ≠ [] → (∃ c ∈ s, isNucleotide c = false) →
      dna_make s = .error "Invalid character in DNA sequence") ∧
    (∀ s : List Char, s.length ≤ 32 → (∃ c ∈ s, isNucleotide c = false) →
      kmer_make s = .error "Invalid character in K-mer sequence") ∧
    (∀ s : List Char, 32 < s.length →
      kmer_make s = .error "K-mer length cannot exceed 32 nucleotides") ∧
    (∀ s : List Char, s.length = 32 → (∀ c ∈ s, isNucleotide c = true) →
      kmer_make s = .ok { length := 32,
                          bit_sequence := base4 (s.map nucleotideCode) }) ∧
    (kmer_make [] = .ok { length := 0, bit_sequence := 0 }) ∧
    (∀ s k, kmer_make s = .ok k →
      k.length = s.length ∧ s.length ≤ 32 ∧ ∀ c ∈ s, isNucleotide c = true) ∧
    (∀ s d, dna_make s = .ok d →
      d.length = s.length ∧ s ≠ [] ∧ ∀ c ∈ s, isNucleotide c = true) := by
  refine ⟨rfl, ?_, ?_, ?_, ?_, rfl, ?_, ?_⟩
  · intro s hne hbad
    have hnotall : s.all isNucleotide = false := by
      rcases hbad with ⟨c, hc, hf⟩
      rw [List.all_eq_false]
      exact ⟨c, hc, by simp [hf]⟩
    unfold dna_make validate_dna_sequence
    rw [if_neg (by simpa [List.isEmpty_iff] using hne), hnotall]
    rfl
  · intro s hlen hbad
    have hnotall : s.all isNucleotide = false := by
      rcases hbad with ⟨c, hc, hf⟩
      rw [List.all_eq_false]
      exact ⟨c, hc, by simp [hf]⟩
    unfold kmer_make validate_kmer_sequence
    rw [if_neg (by omega), hnotall]
    rfl
  · intro s hlen
    unfold kmer_make validate_kmer_sequence
    rw [if_pos (by omega)]
    rfl
  · intro s hlen hv
    have := kmer_make_eq hv (by omega)
    rw [this, hlen]
  · intro s k hok
    by_cases h32 : s.length ≤ 32
    · by_cases hv : ∀ c ∈ s, isNucleotide c = true
      · refine ⟨?_, h32, hv⟩
        rw [kmer_make_eq hv h32] at hok
        cases hok
        rfl
      · exfalso
        have hnotall : s.all isNucleotide = false := by
          rw [List.all_eq_false]
          push_neg at hv
          rcases hv with ⟨c, hc, hf⟩
          exact ⟨c, hc, by simpa using hf⟩
        unfold kmer_make validate_kmer_sequence at hok
        rw [if_neg (by omega), hnotall] at hok
        exact (Except.noConfusion hok)
    · exfalso
      unfold kmer_make validate_kmer_sequence at hok
      rw [if_pos (by omega)] at hok
      exact (Except.noConfusion hok)
  · intro s d hok
    by_cases hne : s = []
    · subst hne
      exact Except.noConfusion hok
    · by_cases hv : ∀ c ∈ s, isNucleotide c = true
      · rcases dna_make_eq ⟨hne, hv⟩ with ⟨d', hd', hdl, _, _⟩
        rw [hd'] at hok
        cases hok
        exact ⟨hdl, hne, hv⟩
      · exfalso
        have hnotall : s.all isNucleotide = false := by
          rw [List.all_eq_false]
          push_neg at hv
          rcases hv with ⟨c, hc, hf⟩
          exact ⟨c, hc, by simpa using hf⟩
        unfold dna_make validate_dna_sequence at hok
        rw [if_neg (by simpa [List.isEmpty_iff] using hne), hnotall] at hok
        exact (Except.noConfusion hok)

/-- Witness for C4 (amended) at concrete inputs: an invalid character, a
33-symbol string, and a 32-symbol string. -/
theorem C4_validation_amended_witness :
    dna_make ['A', 'X'] = .error "Invalid character in DNA sequence" ∧
    kmer_make (List.replicate 33 'A') =
      .error "K-mer length cannot exceed 32 nucleotides" ∧
    kmer_make (List.replicate 32 'G') =
      .ok { length := 32,
            bit_sequence := base4 ((List.replicate 32 'G').map nucleotideCode) } := by
  refine ⟨?_, ?_, ?_⟩
  · exact C4_validation_amended.2.1 ['A', 'X'] (by decide) ⟨'X', by decide, by decide⟩
  · exact C4_validation_amended.2.2.2.1 (List.replicate 33 'A') (by decide)
  · exact C4_validation_amended.2.2.2.2.1 (List.replicate 32 'G') (by decide) (by decide)

/-! ## Claim C5 -/

theorem iupac_cases {c : Char} (h : isIupac c = true) :
    c = 'A' ∨ c = 'T' ∨ c = 'C' ∨ c = 'G' ∨ c = 'U' ∨ c = 'W' ∨ c = 'S' ∨
    c = 'M' ∨ c = 'K' ∨ c = 'R' ∨ c = 'Y' ∨ c = 'B' ∨ c = 'D' ∨ c = 'H' ∨
    c = 'V' ∨ c = 'N' := by
  simp only [isIupac, Bool.or_eq_true, decide_eq_true_eq] at h
  tauto

/-- On a valid pattern character the table of `nucleotide_matches` coincides
with the specification's IUPAC table and never raises. -/
theorem nucleotide_matches_eq {n p : Char} (hp : isIupac p = true) :
    nucleotide_matches n p = .ok (iupacMatchesSpec n p) := by
  rcases iupac_cases hp with h | h | h | h | h | h | h | h | h | h | h | h | h | h | h | h <;>
    subst h <;> rfl

theorem containsGo_eq (q : List Char) : ∀ (i : Nat) (k : Kmer),
    (∀ c ∈ q, isIupac c = true) →
    containsGo q i k = .ok ((List.range q.length).all fun j =>
      iupacMatchesSpec (decodeBits ((k.bit_sequence >>> ((i + j) * 2)) &&& 3))
        (q.getD j 'A')) := by
  induction q with
  | nil => intro i k _; simp [containsGo]
  | cons p rest ih =>
    intro i k hq
    have hp : isIupac p = true := hq p (by simp)
    have hrest : ∀ c ∈ rest, isIupac c = true := fun c hc => hq c (by simp [hc])
    show (do
      let m ← nucleotide_matches (decodeBits ((k.bit_sequence >>> (i * 2)) &&& 3)) p
      if m then containsGo rest (i + 1) k else pure false) = _
    rw [nucleotide_matches_eq hp]
    have hbind : ∀ (b : Bool) (f : Bool → Except String Bool),
        (Except.ok b >>= f) = f b := fun b f => rfl
    rw [hbind]
    have hrange : List.range (p :: rest).length
        = 0 :: (List.range rest.length).map (· + 1) := by
      rw [List.length_cons, List.range_succ_eq_map]
    rw [hrange]
    simp only [List.all_cons, List.all_map, List.getD_cons_zero, Nat.add_zero,
      Function.comp, List.getD_cons_succ]
    cases hb : iupacMatchesSpec (decodeBits ((k.bit_sequence >>> (i * 2)) &&& 3)) p with
    | false => rw [if_neg (by simp), Bool.false_and]; rfl
    | true =>
      rw [if_pos rfl, Bool.true_and, ih (i + 1) k hrest]
      congr 1
      apply congrArg
      funext j
      simp only [Function.comp_apply, List.getD_cons_succ]
      rw [show i + (j + 1) = i + 1 + j by omega]
  
/-- C5: `contains(pattern, kmer)` raises the length-mismatch error exactly
when the pattern length differs from the k-mer length, and otherwise returns
true iff every position of the decoded k-mer matches the pattern symbol per
the IUPAC table of the specification (`iupacMatchesSpec`).  The value
`decodeBits ((bits >>> (i*2)) &&& 3)` is, by definition of `decode_kmer`, the
`i`-th symbol of the decoded k-mer. -/
theorem C5_contains (q : List Char) (k : Kmer) (hq : ∀ c ∈ q, isIupac c = true) :
    contains q k =
      if q.length ≠ k.length then .error "Qkmer pattern and kmer lengths do not match"
      else .ok ((List.range q.length).all fun i =>
        iupacMatchesSpec (decodeBits ((k.bit_sequence >>> (i * 2)) &&& 3))
          (q.getD i 'A')) := by
  unfold contains
  by_cases h : q.length ≠ k.length
  · rw [if_pos h, if_pos h]
  · rw [if_neg h, if_neg h, containsGo_eq q 0 k hq]
    congr 1
    apply congrArg
    funext j
    rw [Nat.zero_add]

/-- Witness for C5: pattern "NAT" against the k-mer "GAT"
(`bit_sequence = 19`), a match at every position. -/
theorem C5_contains_witness :
    contains ['N', 'A', 'T'] { length := 3, bit_sequence := 19 } = .ok true := by
  have h := C5_contains ['N', 'A', 'T'] { length := 3, bit_sequence := 19 }
    (by decide)
  rw [h]
  rfl

/-! ## Claim C6 (code bug) -/

/-- C6 claims `starts_with(x, p)` decides the literal-prefix relation for all
`p.length ≤ x.length` including `p.length = 32`.  At `p.length = 32` the C
code computes `((uint64_t)1 << 64) - 1`, a shift by the full word width —
undefined behaviour; with the x86-64 shift semantics the mask becomes 0 and
the function compares `p.bit_sequence` with 0.  Failing input: `x = p =`
32 copies of `'T'`: the decoded prefix relation holds trivially, yet the
function returns false. -/
theorem C6_starts_with_bug :
    ((kmer_make (List.replicate 32 'T')).bind fun k => starts_with k k) =
      .ok false ∧
    ((kmer_make (List.replicate 32 'T')).bind fun k => kmer_to_str k) =
      .ok (List.replicate 32 'T') ∧
    List.replicate 32 'T' <+: List.replicate 32 'T' := by
  refine ⟨?_, ?_, List.prefix_refl _⟩ <;> rfl

/-! ## Claim C7 -/

/-- The decoded window starting at call counter `ci` is the length-`k` slice
of the original text at `[ci, ci+k)`. -/
theorem kmerWindow_eq {s : List Char} {d : Dna}
    (hwval : ∀ w, d.bit_sequence.getD w 0 = base4 (chunkCodes s w))
    (hv : ∀ c ∈ s, isNucleotide c = true) {k ci : Nat}
    (hck : ci + k ≤ s.length) :
    kmerWindow d k ci = (s.drop ci).take k := by
  unfold kmerWindow
  apply List.ext_getElem
  · simp
    omega
  · intro i hi1 hi2
    have hik : i < k := by simpa using hi1
    simp only [List.getElem_map, List.getElem_range]
    rw [List.getElem_take (s.drop ci), List.getElem_drop s]
    rw [word_digit hwval (by omega : ci + i < s.length)]
    exact decodeBits_code (hv _ (List.getElem_mem _))

/-- C7: on a valid sequence `s` and any window size `1 ≤ k ≤ 32` with
`k ≤ |s|`, `generate_kmers` produces exactly the k-mers of the substrings at
positions `[i, i+k)` for `i = 0 .. |s|-k`, deterministically in left-to-right
order, duplicates included.  (`|s| < 2^64` reflects the `uint64_t` length
field of the C struct.) -/
theorem C7_generate_kmers (s : List Char) (hv : ValidDnaStr s)
    (hbound : s.length < 2 ^ 64) (k : Nat) (hk1 : 1 ≤ k) (hk32 : k ≤ 32)
    (hk2 : k ≤ s.length) :
    ((dna_make s).bind fun d => generate_kmers d k) =
      (List.range (s.length - k + 1)).mapM fun i => kmer_make ((s.drop i).take k) := by
  rcases dna_make_eq hv with ⟨d, hd, hdlen, _, hwval⟩
  rw [hd]
  show generate_kmers d k = _
  unfold generate_kmers
  rw [if_neg (by simp only [Bool.or_eq_true, decide_eq_true_eq]; push_neg; omega)]
  have h2 : (2 : Nat) ^ 64 = 18446744073709551616 := by norm_num
  have hmax : max_calls_model d.length k = s.length - k + 1 := by
    rw [hdlen]
    unfold max_calls_model
    rw [h2] at hbound ⊢
    omega
  rw [hmax]
  have hcong : ∀ l : List Nat, (∀ ci ∈ l, ci + k ≤ s.length) →
      (l.mapM fun ci => kmer_make (kmerWindow d k ci)) =
        (l.mapM fun i => kmer_make ((s.drop i).take k)) := by
    intro l
    induction l with
    | nil => intro _; rfl
    | cons a l ih =>
      intro hmem
      rw [List.mapM_cons, List.mapM_cons,
        kmerWindow_eq hwval hv.2 (hmem a (by simp)),
        ih fun ci hci => hmem ci (by simp [hci])]
  apply hcong
  intro ci hci
  have := List.mem_range.mp hci
  omega

/-- Witness for C7 on the concrete example: `generate_kmers("ATCGTAGCGT", 3)`
yields exactly 8 k-mers, in order ATC, TCG, CGT, GTA, TAG, AGC, GCG, CGT
(repeated CGT included); the packed values are listed, and decoding each
returned k-mer gives the expected strings. -/
theorem C7_generate_kmers_witness :
    ((dna_make ['A', 'T', 'C', 'G', 'T', 'A', 'G', 'C', 'G', 'T']).bind
        fun d => generate_kmers d 3) =
      .ok [{ length := 3, bit_sequence := 36 }, { length := 3, bit_sequence := 57 },
           { length := 3, bit_sequence := 30 }, { length := 3, bit_sequence := 7 },
           { length := 3, bit_sequence := 49 }, { length := 3, bit_sequence := 44 },
           { length := 3, bit_sequence := 59 }, { length := 3, bit_sequence := 30 }] ∧
    (((dna_make ['A', 'T', 'C', 'G', 'T', 'A', 'G', 'C', 'G', 'T']).bind
        fun d => generate_kmers d 3).bind fun ks => ks.mapM kmer_to_str) =
      .ok [['A', 'T', 'C'], ['T', 'C', 'G'], ['C', 'G', 'T'], ['G', 'T', 'A'],
           ['T', 'A', 'G'], ['A', 'G', 'C'], ['G', 'C', 'G'], ['C', 'G', 'T']] := by
  have h := C7_generate_kmers ['A', 'T', 'C', 'G', 'T', 'A', 'G', 'C', 'G', 'T']
    ⟨by decide, by decide⟩ (by norm_num) 3 (by decide) (by decide) (by decide)
  exact ⟨h.trans (by rfl), by rw [h]; rfl⟩

/-! ## Claim C9 -/

/-- C9: `dna_eq_internal` (word-wise packed comparison) and
`kmer_eq_internal` (single 64-bit comparison) are reflexive, symmetric and
transitive, and — on values produced by encoding — agree with string equality
of the decoded forms (`dna_to_str` / `kmer_to_str` recover the original
texts).  Both definitions compare lengths and packed words only, never
strings. -/
theorem C9_equality_props :
    (∀ d : Dna, dna_eq_internal d d = true) ∧
    (∀ d1 d2 : Dna, dna_eq_internal d1 d2 = true → dna_eq_internal d2 d1 = true) ∧
    (∀ d1 d2 d3 : Dna, dna_eq_internal d1 d2 = true →
      dna_eq_internal d2 d3 = true → dna_eq_internal d1 d3 = true) ∧
    (∀ k : Kmer, kmer_eq_internal k k = true) ∧
    (∀ k1 k2 : Kmer, kmer_eq_internal k1 k2 = true → kmer_eq_internal k2 k1 = true) ∧
    (∀ k1 k2 k3 : Kmer, kmer_eq_internal k1 k2 = true →
      kmer_eq_internal k2 k3 = true → kmer_eq_internal k1 k3 = true) ∧
    (∀ s1 s2 d1 d2, ValidDnaStr s1 → ValidDnaStr s2 →
      dna_make s1 = .ok d1 → dna_make s2 = .ok d2 →
      dna_to_str d1 = s1 ∧ dna_to_str d2 = s2 ∧
      (dna_eq_internal d1 d2 = true ↔ s1 = s2)) ∧
    (∀ s1 s2 k1 k2, ValidKmerStr s1 → ValidKmerStr s2 →
      kmer_make s1 = .ok k1 → kmer_make s2 = .ok k2 →
      (kmer_eq_internal k1 k2 = true ↔ s1 = s2)) := by
  have hdna_refl : ∀ d : Dna, dna_eq_internal d d = true := by
    intro d
    unfold dna_eq_internal
    rw [if_neg (by simp)]
    simp [List.all_eq_true]
  have hkmer_refl : ∀ k : Kmer, kmer_eq_internal k k = true := by
    intro k
    unfold kmer_eq_internal
    rw [if_neg (by simp), if_neg (by simp)]
  have hdna_chars : ∀ d1 d2 : Dna, dna_eq_internal d1 d2 = true →
      d1.length = d2.length ∧
      ∀ i, i < (d1.length * 2 + 63) / 64 →
        d1.bit_sequence.getD i 0 = d2.bit_sequence.getD i 0 := by
    intro d1 d2 h
    unfold dna_eq_internal at h
    by_cases hl : d1.length = d2.length
    · rw [if_neg (by simpa using hl)] at h
      refine ⟨hl, fun i hi => ?_⟩
      simp only [List.all_eq_true, List.mem_range] at h
      simpa using h i hi
    · rw [if_pos (by simpa using hl)] at h
      exact absurd h (by simp)
  have hdna_intro : ∀ d1 d2 : Dna, d1.length = d2.length →
      (∀ i, i < (d1.length * 2 + 63) / 64 →
        d1.bit_sequence.getD i 0 = d2.bit_sequence.getD i 0) →
      dna_eq_internal d1 d2 = true := by
    intro d1 d2 hl hw
    unfold dna_eq_internal
    rw [if_neg (by simpa using hl)]
    simp only [List.all_eq_true, List.mem_range]
    intro i hi
    simpa using hw i hi
  have hkmer_chars : ∀ k1 k2 : Kmer, kmer_eq_internal k1 k2 = true → k1 = k2 := by
    intro k1 k2 h
    unfold kmer_eq_internal at h
    by_cases h1 : k1.length = k2.length
    · by_cases h2 : k1.bit_sequence = k2.bit_sequence
      · cases k1; cases k2; simp_all
      · rw [if_neg (by simpa using h1), if_pos (by simpa using h2)] at h
        exact absurd h (by simp)
    · rw [if_pos (by simpa using h1)] at h
      exact absurd h (by simp)
  refine ⟨hdna_refl, ?_, ?_, hkmer_refl, ?_, ?_, ?_, ?_⟩
  · intro d1 d2 h
    rcases hdna_chars d1 d2 h with ⟨hl, hw⟩
    exact hdna_intro d2 d1 hl.symm (fun i hi => (hw i (by rw [hl]; exact hi)).symm)
  · intro d1 d2 d3 h12 h23
    rcases hdna_chars d1 d2 h12 with ⟨hl12, hw12⟩
    rcases hdna_chars d2 d3 h23 with ⟨hl23, hw23⟩
    exact hdna_intro d1 d3 (hl12.trans hl23)
      (fun i hi => (hw12 i hi).trans (hw23 i (by rw [← hl12]; exact hi)))
  · intro k1 k2 h
    rw [hkmer_chars k1 k2 h]
    exact hkmer_refl k2
  · intro k1 k2 k3 h12 h23
    rw [hkmer_chars k1 k2 h12, hkmer_chars k2 k3 h23]
    exact hkmer_refl k3
  · intro s1 s2 d1 d2 hv1 hv2 hd1 hd2
    rcases dna_make_eq hv1 with ⟨e1, he1, hel1, hewl1, hewv1⟩
    rcases dna_make_eq hv2 with ⟨e2, he2, hel2, hewl2, hewv2⟩
    rw [hd1] at he1
    rw [hd2] at he2
    cases he1
    cases he2
    have hts1 : dna_to_str d1 = s1 := by
      unfold dna_to_str
      rw [if_neg (by
        rw [hel1]
        simpa using fun h => hv1.1 (List.eq_nil_of_length_eq_zero h)), hel1]
      exact decode_dna_eq hv1.2 hewv1
    have hts2 : dna_to_str d2 = s2 := by
      unfold dna_to_str
      rw [if_neg (by
        rw [hel2]
        simpa using fun h => hv2.1 (List.eq_nil_of_length_eq_zero h)), hel2]
      exact decode_dna_eq hv2.2 hewv2
    refine ⟨hts1, hts2, ?_, ?_⟩
    · intro heq
      rcases hdna_chars d1 d2 heq with ⟨hl, hw⟩
      have hlen12 : s1.length = s2.length := by rw [← hel1, ← hel2, hl]
      have : decode_dna d2.bit_sequence s2.length = decode_dna d1.bit_sequence s1.length := by
        unfold decode_dna
        rw [hlen12]
        apply List.map_congr_left
        intro i hi
        have hi' : i < s2.length := List.mem_range.mp hi
        have hidx : i / 32 < (d1.length * 2 + 63) / 64 := by
          rw [hel1, hlen12]
          have := wordIndex_lt hi'
          unfold dnaWordCount at this
          omega
        rw [hw (i / 32) hidx]
      calc s1 = decode_dna d1.bit_sequence s1.length := (decode_dna_eq hv1.2 hewv1).symm
        _ = decode_dna d2.bit_sequence s2.length := this.symm
        _ = s2 := decode_dna_eq hv2.2 hewv2
    · intro heq
      subst heq
      have : d1 = d2 := by
        cases hd1.symm.trans hd2
        rfl
      rw [this]
      exact hdna_refl d2
  · intro s1 s2 k1 k2 hv1 hv2 hk1 hk2
    rw [kmer_make_eq hv1.2 hv1.1] at hk1
    rw [kmer_make_eq hv2.2 hv2.1] at hk2
    cases hk1
    cases hk2
    constructor
    · intro heq
      have hkk := hkmer_chars _ _ heq
      have hs1 := kmer_to_str_make hv1.2 hv1.1
      have hs2 := kmer_to_str_make hv2.2 hv2.1
      rw [hkk] at hs1
      rw [hs1] at hs2
      exact Except.ok.inj hs2
    · intro heq
      subst heq
      exact hkmer_refl _

/-- Witness for C9 at concrete encoded values. -/
theorem C9_equality_props_witness :
    dna_eq_internal { length := 2, bit_sequence := [4] }
      { length := 2, bit_sequence := [4] } = true ∧
    (kmer_eq_internal { length := 2, bit_sequence := 4 }
        { length := 2, bit_sequence := 4 } = true ↔
      (['A', 'T'] : List Char) = ['A', 'T']) := by
  constructor
  · exact C9_equality_props.1 { length := 2, bit_sequence := [4] }
  · exact C9_equality_props.2.2.2.2.2.2.2 ['A', 'T'] ['A', 'T'] _ _
      ⟨by decide, by decide⟩ ⟨by decide, by decide⟩ rfl rfl

/-! ## Claim C10 (code bug) -/

/-- C10 claims that for `k > s.length` the count
`max_calls = s.length - k + 1` (unsigned 64-bit) does not wrap and no word
past the packed array is read.  In fact it wraps for every `k > s.length + 1`:
for the sequence "AT" (`length = 2`, one packed word) and `k = 5`,
`max_calls = 2^64 - 2`, so call counter 32 is reached (`32 < max_calls`) and
its first read touches word `(32 + 0) / 32 = 1`, beyond the single allocated
word; only `k = length + 1` gives zero k-mers. -/
theorem C10_max_calls_wraparound :
    dna_make ['A', 'T'] = .ok { length := 2, bit_sequence := [4] } ∧
    max_calls_model 2 5 = 2 ^ 64 - 2 ∧
    max_calls_model 2 3 = 0 ∧
    32 < max_calls_model 2 5 ∧
    dnaWordCount 2 ≤ (32 + 0) / 32 := by
  refine ⟨rfl, by decide, by decide, by decide, by decide⟩

/-! ## Claim C2 (corrected) -/

theorem strncmp_eq_zero_iff : ∀ {n : Nat} {a b : List Char},
    n ≤ a.length → n ≤ b.length → (strncmp a b n = 0 ↔ a.take n = b.take n) := by
  intro n
  induction n with
  | zero => intro a b _ _; simp [strncmp]
  | succ n ih =>
    intro a b ha hb
    match a, b with
    | [], _ => simp at ha
    | _ :: _, [] => simp at hb
    | x :: xs, y :: ys =>
      show (if x = y then strncmp xs ys n else if x < y then -1 else 1) = 0 ↔ _
      by_cases hxy : x = y
      · subst hxy
        rw [if_pos rfl]
        simp only [List.take_succ_cons, List.cons.injEq, true_and]
        exact ih (by simpa using ha) (by simpa using hb)
      · rw [if_neg hxy]
        constructor
        · intro h
          split at h <;> simp at h
        · intro h
          simp only [List.take_succ_cons, List.cons.injEq] at h
          exact absurd h.1 hxy

/-- The length-adjusted `strncmp` of the inner/leaf consistency checks is zero
iff the two strings are identical. -/
theorem adjusted_cmp_eq_zero_iff (e q : List Char) :
    (if strncmp e q (min e.length q.length) = 0 ∧ e.length ≠ q.length
      then (if e.length < q.length then (-1 : Int) else 1)
      else strncmp e q (min e.length q.length)) = 0 ↔ e = q := by
  by_cases h0 : strncmp e q (min e.length q.length) = 0
  · by_cases hl : e.length = q.length
    · rw [if_neg (by tauto)]
      constructor
      · intro _
        have htake := (strncmp_eq_zero_iff (min_le_left _ _) (min_le_right _ _)).mp h0
        have hmin : min e.length q.length = e.length := by omega
        rw [hmin, List.take_length, hl, List.take_length] at htake
        exact htake
      · intro _
        exact h0
    · rw [if_pos ⟨h0, hl⟩]
      constructor
      · intro hc
        split at hc <;> simp at hc
      · intro he
        exact absurd (congrArg List.length he) hl
  · rw [if_neg (by tauto)]
    constructor
    · intro hc
      exact absurd hc h0
    · intro he
      subst he
      exact absurd ((strncmp_eq_zero_iff (min_le_left _ _) (min_le_right _ _)).mpr rfl) h0

/-- C2 counterexample: at the inner node tuple with accumulated string "A",
child label 'T' (byte 84), and starts-with query "A", the claimed rule
retains the child (the accumulated depth 2 is at least the query length 1),
but `spgist_kmer_inner_consistent`'s per-child check prunes it (the adjusted
comparison is forced to +1 by the length difference). -/
theorem C2_claimed_rule_counterexample :
    c2ClaimRetained .pfx ['A'] 84 ['A'] = true ∧
    innerChildConsistent .pfx ['A'] 84 ['A'] = false := by
  constructor <;> rfl

/-- C2 as amended: for every child examined by
`spgist_kmer_inner_consistent`, under both the equality strategy and the
starts-with strategy the child is retained iff the extended accumulated
prefix (the accumulated string plus the child label, when the label is not
the `-1` sentinel) is byte-for-byte identical to the whole query k-mer —
equal length and equal content.  In particular children whose accumulated
prefix is a strict prefix of the query are pruned. -/
theorem C2_inner_consistent_amended (base : List Char) (label : Int)
    (query : List Char) :
    (innerChildConsistent .equal base label query = true ↔
      (if 0 ≤ label then base ++ [Char.ofNat label.toNat] else base) = query) ∧
    (innerChildConsistent .pfx base label query = true ↔
      (if 0 ≤ label then base ++ [Char.ofNat label.toNat] else base) = query) := by
  constructor
  · simp only [innerChildConsistent, decide_eq_true_eq]
    exact adjusted_cmp_eq_zero_iff _ _
  · simp only [innerChildConsistent, decide_eq_true_eq]
    constructor
    · intro h
      exact (adjusted_cmp_eq_zero_iff _ _).mp h.1
    · intro h
      refine ⟨(adjusted_cmp_eq_zero_iff _ _).mpr h, ?_⟩
      rw [← h]

/-! ## Claim C1 (code bug) -/

/-- C1 claims trie traversal returns the same matches as a brute-force scan
for every inserted set and supported predicate.  Failing input: insert
`ATG` and `ACG` (one `spgist_kmer_picksplit` call over both, the state after
the root leaf page overflows), then run the equality query `= ATG`.
The split produces prefix "A" and children labelled 'C' and 'T';
`spgist_kmer_inner_consistent` extends the accumulated prefix to "AT"
(length 2) for the 'T' child, the adjusted comparison against the length-3
query "ATG" becomes -1, and the equality strategy prunes the child, so the
index scan returns nothing while the linear scan (`kmer_eq_internal`, the
`=` operator) returns `ATG` (packed value 52).  The third conjunct shows the
same tree also returns a never-inserted value for the starts-with query
`^@ AT`: the leaf suffix produced by picksplit still contains the label byte,
so the leaf reconstructs "ATTG" (packed value 212, length 4). -/
theorem C1_index_scan_divergence :
    buildAndSearch [['A', 'T', 'G'], ['A', 'C', 'G']] .equal ['A', 'T', 'G'] =
      .ok [] ∧
    linearScanEq [['A', 'T', 'G'], ['A', 'C', 'G']] ['A', 'T', 'G'] =
      .ok [{ length := 3, bit_sequence := 52 }] ∧
    buildAndSearch [['A', 'T', 'G'], ['A', 'C', 'G']] .pfx ['A', 'T'] =
      .ok [{ length := 4, bit_sequence := 212 }] := by
  refine ⟨?_, ?_, ?_⟩ <;> rfl

/-! ## Claim C8: supporting lemmas on the bounded common-prefix count -/

theorem commonLen_le_bound : ∀ (a b : List Char) (n : Nat), commonLen a b n ≤ n := by
  intro a
  induction a with
  | nil => intro b n; cases b <;> cases n <;> simp [commonLen]
  | cons x xs ih =>
    intro b n
    cases b with
    | nil => cases n <;> simp [commonLen]
    | cons y ys =>
      cases n with
      | zero => simp [commonLen]
      | succ n =>
        show (if x = y then commonLen xs ys n + 1 else 0) ≤ n + 1
        split
        · have := ih ys n
          omega
        · omega

theorem commonLen_le_length : ∀ (a b : List Char) (n : Nat),
    commonLen a b n ≤ a.length ∧ commonLen a b n ≤ b.length := by
  intro a
  induction a with
  | nil => intro b n; cases b <;> cases n <;> simp [commonLen]
  | cons x xs ih =>
    intro b n
    cases b with
    | nil => cases n <;> simp [commonLen]
    | cons y ys =>
      cases n with
      | zero => simp [commonLen]
      | succ n =>
        show (if x = y then commonLen xs ys n + 1 else 0) ≤ (x :: xs).length ∧
          (if x = y then commonLen xs ys n + 1 else 0) ≤ (y :: ys).length
        have := ih ys n
        simp only [List.length_cons]
        split <;> omega

theorem commonLen_take_eq : ∀ (a b : List Char) (n : Nat),
    a.take (commonLen a b n) = b.take (commonLen a b n) := by
  intro a
  induction a with
  | nil => intro b n; cases b <;> cases n <;> simp [commonLen]
  | cons x xs ih =>
    intro b n
    cases b with
    | nil => cases n <;> simp [commonLen]
    | cons y ys =>
      cases n with
      | zero => simp [commonLen]
      | succ n =>
        show (x :: xs).take (if x = y then commonLen xs ys n + 1 else 0)
          = (y :: ys).take (if x = y then commonLen xs ys n + 1 else 0)
        by_cases hxy : x = y
        · rw [if_pos hxy, List.take_succ_cons, List.take_succ_cons, hxy, ih ys n]
        · rw [if_neg hxy]
          rfl

/-- The capped counter is a common-prefix length: `a.take c` prefixes `b`. -/
theorem commonLen_pfx (a b : List Char) (n : Nat) :
    a.take (commonLen a b n) <+: b := by
  rw [commonLen_take_eq a b n]
  exact List.take_prefix _ b

theorem commonLen_max : ∀ (m : Nat) (a b : List Char) (n : Nat),
    m ≤ n → m ≤ a.length → a.take m <+: b → m ≤ commonLen a b n := by
  intro m
  induction m with
  | zero => intro a b n _ _ _; omega
  | succ m ih =>
    intro a b n hn ha hp
    match a, n with
    | x :: xs, n + 1 =>
      rcases hp with ⟨t, ht⟩
      rw [List.take_succ_cons, List.cons_append] at ht
      subst ht
      show Nat.succ m ≤ if x = x then commonLen xs (List.take m xs ++ t) n + 1 else 0
      rw [if_pos rfl]
      have : m ≤ commonLen xs (List.take m xs ++ t) n :=
        ih xs _ n (by omega) (by simpa using ha) ⟨t, rfl⟩
      omega

/-- Behaviour of the common-prefix fold of picksplit over the decoded tail. -/
theorem foldCommon_spec (first : List Char) :
    ∀ (rest : List (List Char)) (a0 : Nat), a0 ≤ first.length →
    (rest.foldl (fun acc s => commonLen first s acc) a0) ≤ a0 ∧
    (rest.foldl (fun acc s => commonLen first s acc) a0) ≤ first.length ∧
    (∀ s ∈ rest, first.take (rest.foldl (fun acc s => commonLen first s acc) a0) <+: s) ∧
    (∀ m, m ≤ a0 → (∀ s ∈ rest, first.take m <+: s) →
      m ≤ rest.foldl (fun acc s => commonLen first s acc) a0) := by
  intro rest
  induction rest with
  | nil => intro a0 h; exact ⟨le_refl _, h, by simp, fun m hm _ => hm⟩
  | cons s rest ih =>
    intro a0 h
    simp only [List.foldl_cons]
    have hcb := commonLen_le_bound first s a0
    have hcl := commonLen_le_length first s a0
    rcases ih (commonLen first s a0) hcl.1 with ⟨h1, h2, h3, h4⟩
    refine ⟨le_trans h1 hcb, h2, ?_, ?_⟩
    · intro t ht
      rcases List.mem_cons.mp ht with rfl | ht'
      · -- the folded value is below `commonLen first t a0`, whose take prefixes t
        have hle : rest.foldl (fun acc s => commonLen first s acc)
            (commonLen first t a0) ≤ commonLen first t a0 := h1
        have : first.take (rest.foldl (fun acc s => commonLen first s acc)
            (commonLen first t a0))
            = (first.take (commonLen first t a0)).take
              (rest.foldl (fun acc s => commonLen first s acc)
                (commonLen first t a0)) := by
          rw [List.take_take, min_eq_left hle]
        rw [this]
        exact ((List.take_prefix _ _).trans (commonLen_pfx first t a0))
      · exact h3 t ht'
    · intro m hm hall
      refine h4 m ?_ (fun t ht => hall t (by simp [ht]))
      exact commonLen_max m first s a0 hm (le_trans hm h) (hall s (by simp))

/-! ### Adjacent deduplication of a sorted label list -/

theorem dedupFrom_mem : ∀ (cs : List Int), cs.Sorted (· ≤ ·) →
    ∀ (prev : Option Int), (∀ a, prev = some a → ∀ y ∈ cs, a ≤ y) →
    ∀ x, x ∈ dedupFrom prev cs ↔ (x ∈ cs ∧ prev ≠ some x) := by
  intro cs
  induction cs with
  | nil => intro _ prev _ x; simp [dedupFrom]
  | cons c rest ih =>
    intro hs prev hbound x
    rcases List.sorted_cons.mp hs with ⟨hc, hrest⟩
    have hboundrest : ∀ a, some c = some a → ∀ y ∈ rest, a ≤ y := by
      rintro a ha y hy
      cases ha
      exact hc y hy
    by_cases hp : prev = some c
    · rw [show dedupFrom prev (c :: rest) = dedupFrom (some c) rest by
        rw [dedupFrom, if_pos hp]]
      rw [ih hrest (some c) hboundrest x, hp]
      constructor
      · rintro ⟨hx, hne⟩
        exact ⟨List.mem_cons_of_mem c hx, hne⟩
      · rintro ⟨hx, hne⟩
        rcases List.mem_cons.mp hx with rfl | hx'
        · exact absurd rfl hne
        · exact ⟨hx', hne⟩
    · rw [show dedupFrom prev (c :: rest) = c :: dedupFrom (some c) rest by
        rw [dedupFrom, if_neg hp]]
      constructor
      · intro hx
        rcases List.mem_cons.mp hx with rfl | hx'
        · exact ⟨List.mem_cons_self _ _, hp⟩
        · rcases (ih hrest (some c) hboundrest x).mp hx' with ⟨hxr, hnecx⟩
          refine ⟨List.mem_cons_of_mem c hxr, fun heq => ?_⟩
          have hxc : x ≤ c := hbound x heq c (List.mem_cons_self _ _)
          have hcx : c ≤ x := hc x hxr
          exact hnecx (by rw [le_antisymm hcx hxc])
      · rintro ⟨hx, hne⟩
        rcases List.mem_cons.mp hx with rfl | hx'
        · exact List.mem_cons_self _ _
        · by_cases hxc : x = c
          · rw [hxc]
            exact List.mem_cons_self _ _
          · refine List.mem_cons_of_mem c ?_
            exact (ih hrest (some c) hboundrest x).mpr
              ⟨hx', by simpa using fun h => hxc h.symm⟩

theorem dedupFrom_sorted : ∀ (cs : List Int), cs.Sorted (· ≤ ·) →
    ∀ (prev : Option Int), (∀ a, prev = some a → ∀ y ∈ cs, a ≤ y) →
    (dedupFrom prev cs).Sorted (· < ·) := by
  intro cs
  induction cs with
  | nil => intro _ prev _; simp [dedupFrom, List.Sorted]
  | cons c rest ih =>
    intro hs prev hbound
    rcases List.sorted_cons.mp hs with ⟨hc, hrest⟩
    have hboundrest : ∀ a, some c = some a → ∀ y ∈ rest, a ≤ y := by
      rintro a ha y hy
      cases ha
      exact hc y hy
    by_cases hp : prev = some c
    · rw [show dedupFrom prev (c :: rest) = dedupFrom (some c) rest by
        rw [dedupFrom, if_pos hp]]
      exact ih hrest (some c) hboundrest
    · rw [show dedupFrom prev (c :: rest) = c :: dedupFrom (some c) rest by
        rw [dedupFrom, if_neg hp]]
      rw [List.sorted_cons]
      refine ⟨?_, ih hrest (some c) hboundrest⟩
      intro y hy
      rcases (dedupFrom_mem rest hrest (some c) hboundrest y).mp hy with ⟨hyr, hnecy⟩
      have h1 := hc y hyr
      have h2 : y ≠ c := by simpa using hnecy ∘ (congrArg some) ∘ Eq.symm
      omega

/-! ### The grouping pass of picksplit -/

theorem ok_bind {α β : Type} (x : α) (f : α → Except String β) :
    (Except.ok x >>= f) = f x := rfl

theorem getD_set_self {α : Type} {l : List α} {i : Nat} {a d : α}
    (h : i < l.length) : (l.set i a).getD i d = a := by
  rw [List.getD_eq_getElem?_getD, List.getElem?_set_self h]
  rfl

theorem getD_set_ne {α : Type} {l : List α} {i j : Nat} {a d : α}
    (h : i ≠ j) : (l.set i a).getD j d = l.getD j d := by
  rw [List.getD_eq_getElem?_getD, List.getElem?_set_ne h,
    ← List.getD_eq_getElem?_getD]

theorem getD_append_left {α : Type} {l₁ l₂ : List α} {i : Nat} {d : α}
    (h : i < l₁.length) : (l₁ ++ l₂).getD i d = l₁.getD i d := by
  rw [List.getD_eq_getElem?_getD, List.getElem?_append_left h,
    ← List.getD_eq_getElem?_getD]

theorem getD_concat_length {α : Type} (l : List α) (x d : α) :
    (l ++ [x]).getD l.length d = x := by
  rw [List.getD_eq_getElem?_getD, List.getElem?_concat_length]
  rfl

theorem ValidKmerStr_drop {s : List Char} (hv : ValidKmerStr s) (c : Nat) :
    ValidKmerStr (s.drop c) := by
  rcases hv with ⟨h32, hch⟩
  refine ⟨?_, fun x hx => hch x (List.drop_subset _ _ hx)⟩
  simp only [List.length_drop]
  omega

theorem ValidKmerStr_take {s : List Char} (hv : ValidKmerStr s) (c : Nat) :
    ValidKmerStr (s.take c) := by
  rcases hv with ⟨h32, hch⟩
  refine ⟨?_, fun x hx => hch x (List.take_subset _ _ hx)⟩
  simp only [List.length_take]
  omega

theorem kmer_to_str_mkKmer {s : List Char} (hv : ValidKmerStr s) :
    kmer_to_str (mkKmer s) = .ok s :=
  kmer_to_str_make hv.2 hv.1

theorem kmer_make_mkKmer {s : List Char} (hv : ValidKmerStr s) :
    kmer_make s = .ok (mkKmer s) :=
  kmer_make_eq hv.2 hv.1

theorem picksplitGroup_spec (common : Nat) (g : Nat → List Char) :
    ∀ (ps : List spgNodePtr) (labels0 : List Int) (map0 : List Nat)
      (leaves0 : List Kmer) (prevC : Option Int),
    (∀ p ∈ ps, p.d = mkKmer (g p.i) ∧ ValidKmerStr (g p.i) ∧
      p.i < map0.length ∧ p.i < leaves0.length) →
    (ps.map (fun p => p.i)).Nodup →
    (∀ a, prevC = some a →
      labels0 ≠ [] ∧ labels0.getD (labels0.length - 1) 0 = a) →
    ∃ labelsF mapF leavesF,
      picksplitGroup common ps labels0 map0 leaves0 prevC =
        .ok (labelsF, mapF, leavesF) ∧
      labelsF = labels0 ++ dedupFrom prevC (ps.map (fun p => p.c)) ∧
      mapF.length = map0.length ∧ leavesF.length = leaves0.length ∧
      (∀ j, j ∉ ps.map (fun p => p.i) →
        mapF.getD j 0 = map0.getD j 0 ∧
        leavesF.getD j kdflt = leaves0.getD j kdflt) ∧
      (∀ p ∈ ps, leavesF.getD p.i kdflt = mkKmer ((g p.i).drop common)) ∧
      (∀ p ∈ ps, mapF.getD p.i 0 < labelsF.length ∧
        labelsF.getD (mapF.getD p.i 0) 0 = p.c) := by
  intro ps
  induction ps with
  | nil =>
    intro labels0 map0 leaves0 prevC _ _ _
    refine ⟨labels0, map0, leaves0, rfl, by simp [dedupFrom], rfl, rfl, ?_, ?_, ?_⟩ <;> simp
  | cons p rest ih =>
    intro labels0 map0 leaves0 prevC hprops hnodup hprev
    obtain ⟨hd, hvK, him, hil⟩ := hprops p (List.mem_cons_self _ _)
    have hvdrop : ValidKmerStr ((g p.i).drop common) := ValidKmerStr_drop hvK common
    have hstep : picksplitGroup common (p :: rest) labels0 map0 leaves0 prevC =
        picksplitGroup common rest
          (if prevC = some p.c then labels0 else labels0 ++ [p.c])
          (map0.set p.i
            ((if prevC = some p.c then labels0 else labels0 ++ [p.c]).length - 1))
          (leaves0.set p.i (mkKmer ((g p.i).drop common)))
          (some p.c) := by
      rw [picksplitGroup, hd, kmer_to_str_mkKmer hvK, ok_bind,
        kmer_make_mkKmer hvdrop, ok_bind]
    set labels' := if prevC = some p.c then labels0 else labels0 ++ [p.c] with hlabels'
    have hlab_ne : labels' ≠ [] ∧ labels'.getD (labels'.length - 1) 0 = p.c := by
      rw [hlabels']
      by_cases hpc : prevC = some p.c
      · rw [if_pos hpc]
        exact hprev p.c hpc
      · rw [if_neg hpc]
        constructor
        · simp
        · rw [List.length_append, List.length_singleton,
            show labels0.length + 1 - 1 = labels0.length by omega]
          exact getD_concat_length labels0 p.c 0
    have hrestprops : ∀ q ∈ rest, q.d = mkKmer (g q.i) ∧ ValidKmerStr (g q.i) ∧
        q.i < (map0.set p.i (labels'.length - 1)).length ∧
        q.i < (leaves0.set p.i (mkKmer ((g p.i).drop common))).length := by
      intro q hq
      obtain ⟨h1, h2, h3, h4⟩ := hprops q (List.mem_cons_of_mem p hq)
      exact ⟨h1, h2, by simpa using h3, by simpa using h4⟩
    have hnodup' : (rest.map (fun p => p.i)).Nodup := by
      simp only [List.map_cons, List.nodup_cons] at hnodup
      exact hnodup.2
    have hpin : p.i ∉ rest.map (fun p => p.i) := by
      simp only [List.map_cons, List.nodup_cons] at hnodup
      exact hnodup.1
    have hprev' : ∀ a, (some p.c : Option Int) = some a →
        labels' ≠ [] ∧ labels'.getD (labels'.length - 1) 0 = a := by
      rintro a ha
      cases ha
      exact hlab_ne
    rcases ih labels' (map0.set p.i (labels'.length - 1))
        (leaves0.set p.i (mkKmer ((g p.i).drop common))) (some p.c)
        hrestprops hnodup' hprev' with
      ⟨labelsF, mapF, leavesF, hrun, hlab, hml, hll, huntouched, hleaves, hmap⟩
    refine ⟨labelsF, mapF, leavesF, hstep.trans hrun, ?_, ?_, ?_, ?_, ?_, ?_⟩
    · rw [hlab, List.map_cons]
      rw [show dedupFrom prevC (p.c :: rest.map (fun p => p.c))
          = if prevC = some p.c then dedupFrom (some p.c) (rest.map (fun p => p.c))
            else p.c :: dedupFrom (some p.c) (rest.map (fun p => p.c)) from rfl]
      rw [hlabels']
      by_cases hpc : prevC = some p.c
      · rw [if_pos hpc, if_pos hpc]
      · rw [if_neg hpc, if_neg hpc, List.append_assoc, List.singleton_append]
    · rw [hml, List.length_set]
    · rw [hll, List.length_set]
    · intro j hj
      have hjne : p.i ≠ j := fun h => hj (by rw [← h]; simp)
      have hjrest : j ∉ rest.map (fun p => p.i) := fun h => hj (by simp [h])
      obtain ⟨hm, hl⟩ := huntouched j hjrest
      exact ⟨hm.trans (getD_set_ne hjne), hl.trans (getD_set_ne hjne)⟩
    · intro q hq
      rcases List.mem_cons.mp hq with rfl | hq'
      · obtain ⟨_, hl⟩ := huntouched q.i hpin
        rw [hl, getD_set_self hil]
      · exact hleaves q hq'
    · intro q hq
      rcases List.mem_cons.mp hq with rfl | hq'
      · obtain ⟨hm, _⟩ := huntouched q.i hpin
        have hmv : mapF.getD q.i 0 = labels'.length - 1 :=
          hm.trans (getD_set_self him)
        have hlen1 : 1 ≤ labels'.length :=
          List.length_pos.mpr hlab_ne.1
        constructor
        · rw [hmv, hlab, List.length_append]
          omega
        · rw [hmv, hlab, getD_append_left (by omega)]
          exact hlab_ne.2
      · exact hmap q hq'

/-! ### The effectful passes of picksplit, on valid inputs -/

theorem mapM_kmer_make : ∀ (ss : List (List Char)), (∀ s ∈ ss, ValidKmerStr s) →
    ss.mapM kmer_make = .ok (ss.map mkKmer) := by
  intro ss
  induction ss with
  | nil => intro _; rfl
  | cons s tl ih =>
    intro hv
    rw [List.mapM_cons, kmer_make_mkKmer (hv s (by simp)),
      ih (fun t ht => hv t (by simp [ht]))]
    rfl

theorem foldlM_common (first : List Char) :
    ∀ (tl : List (List Char)), (∀ s ∈ tl, ValidKmerStr s) → ∀ (a0 : Nat),
    ((tl.map mkKmer).foldlM (fun acc k => do
        let seq ← kmer_to_str k
        pure (commonLen first seq acc)) a0)
      = .ok (tl.foldl (fun acc s => commonLen first s acc) a0) := by
  intro tl
  induction tl with
  | nil => intro _ a0; rfl
  | cons s tl ih =>
    intro hv a0
    rw [List.map_cons, List.foldlM_cons, kmer_to_str_mkKmer (hv s (by simp)), ok_bind]
    exact ih (fun t ht => hv t (by simp [ht])) (commonLen first s a0)

theorem nodesM_eq (common : Nat) (g : Nat → List Char) :
    ∀ (l : List (Nat × Kmer)),
    (∀ q ∈ l, q.2 = mkKmer (g q.1) ∧ ValidKmerStr (g q.1)) →
    (l.mapM (fun p => do
        let seq ← kmer_to_str p.2
        pure ({ d := p.2, i := p.1,
                c := if common < p.2.length
                     then ((seq.getD common 'A').toNat : Int)
                     else (-1 : Int) } : spgNodePtr)))
      = .ok (l.map (fun q =>
          ({ d := q.2, i := q.1, c := labelAt common (g q.1) } : spgNodePtr))) := by
  intro l
  induction l with
  | nil => intro _; rfl
  | cons q l ih =>
    intro hq
    obtain ⟨hd, hvK⟩ := hq q (List.mem_cons_self _ _)
    rw [List.mapM_cons]
    rw [show kmer_to_str q.2 = .ok (g q.1) from hd ▸ kmer_to_str_mkKmer hvK, ok_bind]
    rw [ih (fun r hr => hq r (List.mem_cons_of_mem q hr))]
    simp only [List.map_cons]
    rw [hd]
    show Except.ok _ = Except.ok _
    simp [labelAt, mkKmer]

/-- Evaluation of the whole picksplit pipeline on encoded valid strings:
it succeeds, and its output is the record built from the capped common
prefix `c`, the grouping of the sorted node array, and the residual
suffixes. -/
theorem picksplit_run (s0 : List Char) (tl : List (List Char))
    (hv : ∀ s ∈ s0 :: tl, ValidKmerStr s) :
    ∃ (c : Nat) (labelsF : List Int) (mapF : List Nat) (leavesF : List Kmer),
      spgist_kmer_picksplit (mkKmer s0 :: tl.map mkKmer) =
        .ok { hasPfx := decide (0 < c),
              pfxDatum := if 0 < c then some (mkKmer (s0.take c)) else none,
              nNodes := labelsF.length, nodeLabels := labelsF,
              mapTuplesToNodes := mapF, leafTupleDatums := leavesF } ∧
      c = min (tl.foldl (fun acc s => commonLen s0 s acc) s0.length) 10 ∧
      labelsF = dedupFrom none
        ((List.insertionSort (fun a b => a.c ≤ b.c)
          (((mkKmer s0 :: tl.map mkKmer).enum).map (fun q =>
            ({ d := q.2, i := q.1,
               c := labelAt c ((s0 :: tl).getD q.1 []) } : spgNodePtr)))).map
          (fun p => p.c)) ∧
      mapF.length = (s0 :: tl).length ∧ leavesF.length = (s0 :: tl).length ∧
      (∀ j, j < (s0 :: tl).length →
        leavesF.getD j kdflt = mkKmer (((s0 :: tl).getD j []).drop c) ∧
        mapF.getD j 0 < labelsF.length ∧
        labelsF.getD (mapF.getD j 0) 0 = labelAt c ((s0 :: tl).getD j [])) := by
  have hv0 : ValidKmerStr s0 := hv s0 (by simp)
  have hvtl : ∀ s ∈ tl, ValidKmerStr s := fun s hs => hv s (by simp [hs])
  have hql : ∀ q ∈ (mkKmer s0 :: tl.map mkKmer).enum,
      q.2 = mkKmer ((s0 :: tl).getD q.1 []) ∧
      ValidKmerStr ((s0 :: tl).getD q.1 []) := by
    intro q hq
    rw [show mkKmer s0 :: tl.map mkKmer = (s0 :: tl).map mkKmer from rfl] at hq
    have hget := List.mem_enum_iff_get?.mp hq
    rw [List.get?_map] at hget
    rcases Option.map_eq_some'.mp hget with ⟨s, hs, hq2⟩
    have hsD : (s0 :: tl).getD q.1 [] = s := by
      rw [List.getD_eq_getElem?_getD, ← List.get?_eq_getElem?, hs]
      rfl
    rw [hsD]
    exact ⟨hq2.symm, hv s (List.get?_mem hs)⟩
  have hq1lt : ∀ q ∈ (mkKmer s0 :: tl.map mkKmer).enum,
      q.1 < (s0 :: tl).length := by
    intro q hq
    have hget := List.mem_enum_iff_get?.mp hq
    have := List.get?_eq_some.mp hget
    rcases this with ⟨h, _⟩
    simpa using h
  -- the sorted node array for the capped prefix length
  have main : ∀ c : Nat,
      c = min (tl.foldl (fun acc s => commonLen s0 s acc) s0.length) 10 →
      ∃ (labelsF : List Int) (mapF : List Nat) (leavesF : List Kmer),
      spgist_kmer_picksplit (mkKmer s0 :: tl.map mkKmer) =
        .ok { hasPfx := decide (0 < c),
              pfxDatum := if 0 < c then some (mkKmer (s0.take c)) else none,
              nNodes := labelsF.length, nodeLabels := labelsF,
              mapTuplesToNodes := mapF, leafTupleDatums := leavesF } ∧
      labelsF = dedupFrom none
        ((List.insertionSort (fun a b => a.c ≤ b.c)
          (((mkKmer s0 :: tl.map mkKmer).enum).map (fun q =>
            ({ d := q.2, i := q.1,
               c := labelAt c ((s0 :: tl).getD q.1 []) } : spgNodePtr)))).map
          (fun p => p.c)) ∧
      mapF.length = (s0 :: tl).length ∧ leavesF.length = (s0 :: tl).length ∧
      (∀ j, j < (s0 :: tl).length →
        leavesF.getD j kdflt = mkKmer (((s0 :: tl).getD j []).drop c) ∧
        mapF.getD j 0 < labelsF.length ∧
        labelsF.getD (mapF.getD j 0) 0 = labelAt c ((s0 :: tl).getD j [])) := by
    intro c hceq
    subst hceq
    -- abbreviations appear spelled out so that each rewrite matches syntactically
    have hsprops : ∀ p ∈ (List.insertionSort (fun a b => a.c ≤ b.c)
        (((mkKmer s0 :: tl.map mkKmer).enum).map (fun q =>
          ({ d := q.2, i := q.1,
             c := labelAt (min (tl.foldl (fun acc s => commonLen s0 s acc) s0.length) 10)
               ((s0 :: tl).getD q.1 []) } : spgNodePtr)))),
        p.d = mkKmer ((s0 :: tl).getD p.i []) ∧
        ValidKmerStr ((s0 :: tl).getD p.i []) ∧
        p.i < (List.replicate (mkKmer s0 :: tl.map mkKmer).length (0 : Nat)).length ∧
        p.i < (List.replicate (mkKmer s0 :: tl.map mkKmer).length
          ({ length := 0, bit_sequence := 0 } : Kmer)).length := by
      intro p hp
      have hpn := (List.mem_insertionSort _).mp hp
      rcases List.mem_map.mp hpn with ⟨q, hq, rfl⟩
      obtain ⟨h1, h2⟩ := hql q hq
      have h3 := hq1lt q hq
      refine ⟨h1, h2, ?_, ?_⟩ <;> simp <;> simpa using h3
    have hsnodup : ((List.insertionSort (fun a b => a.c ≤ b.c)
        (((mkKmer s0 :: tl.map mkKmer).enum).map (fun q =>
          ({ d := q.2, i := q.1,
             c := labelAt (min (tl.foldl (fun acc s => commonLen s0 s acc) s0.length) 10)
               ((s0 :: tl).getD q.1 []) } : spgNodePtr)))).map
          (fun p => p.i)).Nodup := by
      have hperm := (List.perm_insertionSort (fun a b => a.c ≤ b.c)
        (((mkKmer s0 :: tl.map mkKmer).enum).map (fun q =>
          ({ d := q.2, i := q.1,
             c := labelAt (min (tl.foldl (fun acc s => commonLen s0 s acc) s0.length) 10)
               ((s0 :: tl).getD q.1 []) } : spgNodePtr)))).map (fun p => p.i)
      rw [hperm.nodup_iff]
      rw [List.map_map]
      rw [show ((fun p : spgNodePtr => p.i) ∘ (fun q : Nat × Kmer =>
          ({ d := q.2, i := q.1,
             c := labelAt (min (tl.foldl (fun acc s => commonLen s0 s acc) s0.length) 10)
               ((s0 :: tl).getD q.1 []) } : spgNodePtr)))
        = Prod.fst from rfl]
      rw [List.enum_eq_enumFrom, List.enumFrom_map_fst]
      exact List.nodup_range' ..
    obtain ⟨labelsF, mapF, leavesF, hrun, hlab, hml, hll, huntouch, hleaves, hmap⟩ :=
      picksplitGroup_spec
        (min (tl.foldl (fun acc s => commonLen s0 s acc) s0.length) 10)
        (fun j => (s0 :: tl).getD j [])
        (List.insertionSort (fun a b => a.c ≤ b.c)
          (((mkKmer s0 :: tl.map mkKmer).enum).map (fun q =>
            ({ d := q.2, i := q.1,
               c := labelAt (min (tl.foldl (fun acc s => commonLen s0 s acc) s0.length) 10)
                 ((s0 :: tl).getD q.1 []) } : spgNodePtr))))
        [] (List.replicate (mkKmer s0 :: tl.map mkKmer).length 0)
        (List.replicate (mkKmer s0 :: tl.map mkKmer).length
          ({ length := 0, bit_sequence := 0 } : Kmer)) none
        hsprops hsnodup (by rintro a h; exact Option.noConfusion h)
    refine ⟨labelsF, mapF, leavesF, ?_, hlab.trans (by rw [List.nil_append]), ?_, ?_, ?_⟩
    · -- run the pipeline
      simp only [spgist_kmer_picksplit]
      rw [kmer_to_str_mkKmer hv0]
      simp only [ok_bind]
      rw [foldlM_common s0 tl hvtl ((mkKmer s0).length)]
      simp only [ok_bind]
      simp only [show (mkKmer s0).length = s0.length from rfl]
      by_cases hc0 : 0 < min (tl.foldl (fun acc s => commonLen s0 s acc) s0.length) 10
      · rw [if_pos hc0, if_pos hc0, kmer_make_mkKmer (ValidKmerStr_take hv0 _)]
        simp only [ok_bind, pure_bind]
        rw [nodesM_eq (min (tl.foldl (fun acc s => commonLen s0 s acc) s0.length) 10)
          (fun j => (s0 :: tl).getD j []) _ hql]
        simp only [ok_bind]
        rw [hrun]
        simp only [ok_bind]
        rfl
      · rw [if_neg hc0, if_neg hc0]
        simp only [pure_bind]
        rw [nodesM_eq (min (tl.foldl (fun acc s => commonLen s0 s acc) s0.length) 10)
          (fun j => (s0 :: tl).getD j []) _ hql]
        simp only [ok_bind]
        rw [hrun]
        simp only [ok_bind]
        rfl
    · rw [hml]
      simp
    · rw [hll]
      simp
    · intro j hj
      -- the node for original index j is in the sorted array
      have hjq : ((j, mkKmer ((s0 :: tl).getD j [])) : Nat × Kmer)
          ∈ (mkKmer s0 :: tl.map mkKmer).enum := by
        rw [show mkKmer s0 :: tl.map mkKmer = (s0 :: tl).map mkKmer from rfl]
        rw [List.mem_enum_iff_get?, List.get?_map]
        have : (s0 :: tl).get? j = some ((s0 :: tl).getD j []) := by
          rw [List.get?_eq_getElem?, List.getElem?_eq_getElem hj,
            List.getD_eq_getElem?_getD, List.getElem?_eq_getElem hj]
          rfl
        rw [this]
        rfl
      have hpmem :
          ({ d := mkKmer ((s0 :: tl).getD j []), i := j,
             c := labelAt (min (tl.foldl (fun acc s => commonLen s0 s acc) s0.length) 10)
               ((s0 :: tl).getD j []) } : spgNodePtr)
          ∈ (List.insertionSort (fun a b => a.c ≤ b.c)
            (((mkKmer s0 :: tl.map mkKmer).enum).map (fun q =>
              ({ d := q.2, i := q.1,
                 c := labelAt (min (tl.foldl (fun acc s => commonLen s0 s acc) s0.length) 10)
                   ((s0 :: tl).getD q.1 []) } : spgNodePtr)))) := by
        rw [List.mem_insertionSort]
        exact List.mem_map.mpr ⟨(j, mkKmer ((s0 :: tl).getD j [])), hjq, rfl⟩
      obtain ⟨hm1, hm2⟩ := hmap _ hpmem
      exact ⟨hleaves _ hpmem, hm1, hm2⟩
  obtain ⟨L, M, V, h1, h2, h3, h4, h5⟩ := main _ rfl
  exact ⟨_, L, M, V, h1, rfl, h2, h3, h4, h5⟩

/-- **C8.** Run over any non-empty collection of valid k-mer values,
`spgist_kmer_picksplit` succeeds and computes the longest common prefix of
all decoded values capped at the constant 10 (a bound within the spec's
10-32 window): the produced length `c` is at most 10, is a common-prefix
length of every value, and is maximal among capped common-prefix lengths.
The capped prefix is emitted as the node prefix exactly when it is
non-empty.  The node labels are the next diverging bytes of the values
(`labelAt c`, with sentinel `-1` for a value fully consumed by the prefix),
sorted strictly ascending — hence deduplicated — and a byte is a label iff
some value diverges with it.  Every value `j` is mapped to the bucket
carrying its own diverging byte, and its leaf payload is the k-mer of its
residual suffix after the prefix. -/
theorem C8_picksplit_spec (s0 : List Char) (tl : List (List Char))
    (hv : ∀ s ∈ s0 :: tl, ValidKmerStr s) :
    ∃ (c : Nat) (out : PickSplitOut),
      spgist_kmer_picksplit ((s0 :: tl).map mkKmer) = .ok out ∧
      c ≤ 10 ∧ c ≤ s0.length ∧
      (∀ s ∈ s0 :: tl, s0.take c <+: s) ∧
      (∀ m, m ≤ s0.length → (∀ s ∈ s0 :: tl, s0.take m <+: s) →
        min m 10 ≤ c) ∧
      out.hasPfx = decide (0 < c) ∧
      out.pfxDatum = (if 0 < c then some (mkKmer (s0.take c)) else none) ∧
      out.nNodes = out.nodeLabels.length ∧
      List.Sorted (· < ·) out.nodeLabels ∧
      (∀ x : Int, x ∈ out.nodeLabels ↔ ∃ s ∈ s0 :: tl, x = labelAt c s) ∧
      out.mapTuplesToNodes.length = (s0 :: tl).length ∧
      out.leafTupleDatums.length = (s0 :: tl).length ∧
      (∀ j, j < (s0 :: tl).length →
        out.leafTupleDatums.getD j kdflt
          = mkKmer (((s0 :: tl).getD j []).drop c) ∧
        out.mapTuplesToNodes.getD j 0 < out.nodeLabels.length ∧
        out.nodeLabels.getD (out.mapTuplesToNodes.getD j 0) 0
          = labelAt c ((s0 :: tl).getD j [])) := by
  obtain ⟨c, labelsF, mapF, leavesF, hrun, hc, hlab, hml, hll, hj⟩ :=
    picksplit_run s0 tl hv
  obtain ⟨hF1, hF2, hF3, hF4⟩ := foldCommon_spec s0 tl s0.length (le_refl _)
  have hsorted : List.Sorted (· ≤ ·)
      ((List.insertionSort (fun a b => a.c ≤ b.c)
        (((mkKmer s0 :: tl.map mkKmer).enum).map (fun q =>
          ({ d := q.2, i := q.1,
             c := labelAt c ((s0 :: tl).getD q.1 []) } : spgNodePtr)))).map
        (fun p => p.c)) := by
    have hs := List.sorted_insertionSort (fun a b => a.c ≤ b.c)
      (((mkKmer s0 :: tl.map mkKmer).enum).map (fun q =>
        ({ d := q.2, i := q.1,
           c := labelAt c ((s0 :: tl).getD q.1 []) } : spgNodePtr)))
    exact List.Pairwise.map _ (fun a b h => h) hs
  refine ⟨c, _, hrun, by omega, by omega, ?_, ?_, rfl, rfl, rfl, ?_, ?_,
    hml, hll, hj⟩
  · intro s hs
    rcases List.mem_cons.mp hs with rfl | hs'
    · exact List.take_prefix _ _
    · have h3 := hF3 s hs'
      have hle : c ≤ tl.foldl (fun acc s => commonLen s0 s acc) s0.length := by
        omega
      have heq : s0.take c
          = (s0.take (tl.foldl (fun acc s => commonLen s0 s acc)
              s0.length)).take c := by
        rw [List.take_take, min_eq_left hle]
      rw [heq]
      exact (List.take_prefix _ _).trans h3
  · intro m hm hall
    have := hF4 m hm (fun s hs => hall s (List.mem_cons_of_mem _ hs))
    omega
  · rw [hlab]
    exact dedupFrom_sorted _ hsorted none
      (by rintro a h; exact Option.noConfusion h)
  · intro x
    rw [hlab, dedupFrom_mem _ hsorted none
      (by rintro a h; exact Option.noConfusion h) x]
    constructor
    · rintro ⟨hx, -⟩
      rcases List.mem_map.mp hx with ⟨p, hp, rfl⟩
      have hp' := (List.mem_insertionSort _).mp hp
      rcases List.mem_map.mp hp' with ⟨q, hq, rfl⟩
      refine ⟨(s0 :: tl).getD q.1 [], ?_, rfl⟩
      have hget := List.mem_enum_iff_get?.mp hq
      rcases List.get?_eq_some.mp hget with ⟨hlt, -⟩
      have hlt' : q.1 < (s0 :: tl).length := by simpa using hlt
      have hD : (s0 :: tl).getD q.1 [] = (s0 :: tl).get ⟨q.1, hlt'⟩ := by
        rw [List.getD_eq_getElem?_getD, List.getElem?_eq_getElem hlt']
        rfl
      rw [hD]
      exact List.get_mem _ _ _
    · rintro ⟨s, hs, rfl⟩
      refine ⟨?_, by rintro h; exact Option.noConfusion h⟩
      rcases List.mem_iff_getElem.mp hs with ⟨j, hj', hsj⟩
      apply List.mem_map.mpr
      refine ⟨{ d := mkKmer ((s0 :: tl).getD j []), i := j,
                c := labelAt c ((s0 :: tl).getD j []) }, ?_, ?_⟩
      · rw [List.mem_insertionSort]
        apply List.mem_map.mpr
        refine ⟨(j, mkKmer ((s0 :: tl).getD j [])), ?_, rfl⟩
        rw [show mkKmer s0 :: tl.map mkKmer = (s0 :: tl).map mkKmer from rfl]
        rw [List.mem_enum_iff_get?, List.get?_map]
        have hDget : (s0 :: tl).get? j = some ((s0 :: tl).getD j []) := by
          rw [List.get?_eq_getElem?, List.getElem?_eq_getElem hj',
            List.getD_eq_getElem?_getD, List.getElem?_eq_getElem hj']
          rfl
        rw [hDget]
        rfl
      · show labelAt c ((s0 :: tl).getD j []) = labelAt c s
        congr 1
        rw [List.getD_eq_getElem?_getD, List.getElem?_eq_getElem hj']
        exact hsj

/-- Concrete instantiation of `C8_picksplit_spec` at the valid inputs
`ATG` and `ACG`, discharging the validity hypothesis. -/
theorem C8_picksplit_spec_witness :
    (∀ s ∈ [['A', 'T', 'G'], ['A', 'C', 'G']], ValidKmerStr s) ∧
    (∃ (c : Nat) (out : PickSplitOut),
      spgist_kmer_picksplit ([['A', 'T', 'G'], ['A', 'C', 'G']].map mkKmer)
        = .ok out ∧
      c ≤ 10 ∧ c ≤ (['A', 'T', 'G'] : List Char).length ∧
      (∀ s ∈ [['A', 'T', 'G'], ['A', 'C', 'G']],
        (['A', 'T', 'G'] : List Char).take c <+: s) ∧
      (∀ m, m ≤ (['A', 'T', 'G'] : List Char).length →
        (∀ s ∈ [['A', 'T', 'G'], ['A', 'C', 'G']],
          (['A', 'T', 'G'] : List Char).take m <+: s) →
        min m 10 ≤ c) ∧
      out.hasPfx = decide (0 < c) ∧
      out.pfxDatum = (if 0 < c
        then some (mkKmer ((['A', 'T', 'G'] : List Char).take c))
        else none) ∧
      out.nNodes = out.nodeLabels.length ∧
      List.Sorted (· < ·) out.nodeLabels ∧
      (∀ x : Int, x ∈ out.nodeLabels ↔
        ∃ s ∈ [['A', 'T', 'G'], ['A', 'C', 'G']], x = labelAt c s) ∧
      out.mapTuplesToNodes.length
        = ([['A', 'T', 'G'], ['A', 'C', 'G']] : List (List Char)).length ∧
      out.leafTupleDatums.length
        = ([['A', 'T', 'G'], ['A', 'C', 'G']] : List (List Char)).length ∧
      (∀ j, j < ([['A', 'T', 'G'], ['A', 'C', 'G']] : List (List Char)).length →
        out.leafTupleDatums.getD j kdflt
          = mkKmer ((([['A', 'T', 'G'], ['A', 'C', 'G']]
              : List (List Char)).getD j []).drop c) ∧
        out.mapTuplesToNodes.getD j 0 < out.nodeLabels.length ∧
        out.nodeLabels.getD (out.mapTuplesToNodes.getD j 0) 0
          = labelAt c (([['A', 'T', 'G'], ['A', 'C', 'G']]
              : List (List Char)).getD j []))) := by
  have hv : ∀ s ∈ [['A', 'T', 'G'], ['A', 'C', 'G']], ValidKmerStr s := by
    intro s hs
    rcases List.mem_cons.mp hs with rfl | hs
    · exact ⟨by decide, by decide⟩
    rcases List.mem_cons.mp hs with rfl | hs
    · exact ⟨by decide, by decide⟩
    · exact absurd hs (List.not_mem_nil s)
  exact ⟨hv, C8_picksplit_spec ['A', 'T', 'G'] [['A', 'C', 'G']] hv⟩

end DnaC
